import Mathlib

/-!
# cloudant-lucene: query builder, escaper and shorthand parser

A shallow embedding of `cloudant.go`.

* A text is a Lean `String`: the sequence of Unicode code points that
  `for _, r := range s` enumerates on well-formed UTF-8 and that `bytes.Buffer.WriteRune`
  writes back. A Go `string` in general is a sequence of bytes; `Escape.bytes` embeds the
  escaper on such sequences, ill-formed ones included, with the decoding of `range`, the
  encoding of `WriteRune` and the panic of `b.Grow`, and `Escape_bytes_utf8` proves that it
  agrees with `Escape` on the encoding of every text.
* `interface{}` scalars handed to `Is` and `Range` are modelled by `GoValue`; every scalar
  that is not a `Keyword`, a `string` or an integer is the constructor `unsupported`.
* Pointers into the component tree are modelled by explicit state passing: a builder
  operation returns the updated receiver, `Query.Index` and `Query.Group` also return the
  position of the appended child, and `Query.atIndex` / `Query.atGroup` run a chained call
  on that child.
* A `panic` is the error case of `Except`.
* A Go `map[string]string` is modelled by `GoMap`: the list of its entries in the order the
  `range` statement happens to enumerate them, with pairwise distinct keys.
-/

namespace cloudant

/-! ## Library functions used by the source (`strings`, `strconv`) -/

namespace strings

/-- The pieces produced by the splitting loop of `strings.genSplit` for a one-character
separator: at most `k` cuts are made, the last piece is the unsplit remainder. -/
def genSplit (sep : Char) : Nat → List Char → List (List Char)
  | 0, s => [s]
  | k + 1, s =>
    match s.span (fun c => c != sep) with
    | (a, []) => [a]
    | (a, _ :: rest) => a :: genSplit sep k rest

/-- Library function `strings.Count(s, sep)` for a one-character separator. -/
def Count (s : String) (sep : Char) : Nat :=
  s.data.count sep

/-- Library function `strings.Split(s, sep)` for a one-character separator `sep`: all
the substrings between separators (`Count(s, sep) + 1` of them). -/
def Split (s : String) (sep : Char) : List String :=
  (genSplit sep (Count s sep) s.data).map String.mk

/-- Library function `strings.SplitN(s, sep, n)` for a one-character separator `sep` and
`n ≥ 0`: at most `n` substrings (`n - 1` cuts), the last one being the unsplit remainder;
`n = 0` gives no substring. -/
def SplitN (s : String) (sep : Char) (n : Nat) : List String :=
  match n with
  | 0 => []
  | k + 1 => (genSplit sep k s.data).map String.mk

/-- Library function `strings.Join(a, sep)`. -/
def Join : List String → String → String
  | [], _ => ""
  | [a], _ => a
  | a :: b :: rest, sep => a ++ sep ++ Join (b :: rest) sep

end strings

namespace strconv

/-- The decimal digit character of `d < 10`. -/
def digitChar (d : Nat) : Char :=
  Char.ofNat (48 + d)

/-- The digit loop of `strconv.formatBits` in base 10: the digits of `u` are produced from
the least significant one and written in front of `acc`. -/
def formatBits : Nat → Nat → List Char → List Char
  | 0, u, acc => digitChar (u % 10) :: acc
  | fuel + 1, u, acc =>
    if u < 10 then digitChar u :: acc
    else formatBits fuel (u / 10) (digitChar (u % 10) :: acc)

/-- Library function `strconv.FormatUint(u, 10)`. -/
def FormatUint (u : Nat) : String :=
  ⟨formatBits u u []⟩

/-- Library function `strconv.FormatInt(i, 10)`: a minus sign followed by the digits of
the magnitude when `i` is negative. -/
def FormatInt (i : Int) : String :=
  if i < 0 then ⟨'-' :: formatBits i.natAbs i.natAbs []⟩ else FormatUint i.natAbs

end strconv

/-! ## Data model -/

/-- A keyword: a token that must not be escaped (`type Keyword string`). -/
structure Keyword where
  text : String
deriving DecidableEq

/-- The constant `Or`. -/
def Keyword.Or : Keyword := ⟨"OR"⟩
/-- The constant `And`. -/
def Keyword.And : Keyword := ⟨"AND"⟩
/-- The constant `Infinity`. -/
def Keyword.Infinity : Keyword := ⟨"Infinity"⟩
/-- The constant `NInfinity`. -/
def Keyword.NInfinity : Keyword := ⟨"-Infinity"⟩

/-- Source `func (w Keyword) String() string`. -/
def Keyword.String (w : Keyword) : String :=
  w.text

/-- The dynamic type and value of an `interface{}` scalar, as the type switch of
`queryValue.String` tells them apart: `int` stands for the types `int`, `int8`, `int16`,
`int32`, `int64` and `uint` for `uint`, `uint8`, `uint16`, `uint32`, `uint64`, each with the
value it carries; `unsupported` stands for every other dynamic type (the `default` case). -/
inductive GoValue where
  | keyword (k : Keyword)
  | str (s : String)
  | int (n : Int)
  | uint (n : Nat)
  | unsupported
deriving DecidableEq

/-- A user value (`type queryValue struct { t interface{} }`). -/
structure queryValue where
  t : GoValue
deriving DecidableEq

mutual
/-- The implementations of the interface `queryComponent`. -/
inductive queryComponent where
  | query (q : Query)
  | index (i : Index)
  | keyword (k : Keyword)
  | value (v : queryValue)
  | range (r : queryRange)
/-- The struct `Query`. -/
inductive Query where
  | mk (isGroup : Bool) (c : List queryComponent)
/-- The struct `Index`. -/
inductive Index where
  | mk (name : String) (c : List queryComponent)
/-- The struct `queryRange`, its array `v` given by its two entries. -/
inductive queryRange where
  | mk (v0 v1 : queryComponent)
end

/-- The type `queryComponents`. -/
abbrev queryComponents := List queryComponent

/-- Field `isGroup`. -/
def Query.isGroup : Query → Bool
  | .mk g _ => g

/-- Field `c`. -/
def Query.c : Query → queryComponents
  | .mk _ c => c

/-- Field `name`. -/
def Index.name : Index → String
  | .mk n _ => n

/-- Field `c`. -/
def Index.c : Index → queryComponents
  | .mk _ c => c

/-- A Go map from strings to strings: its entries in the order of enumeration, the keys
pairwise distinct. -/
structure GoMap where
  entries : List (String × String)
  nodup : (entries.map Prod.fst).Nodup

/-- The keys of a map. -/
def GoMap.keys (m : GoMap) : List String :=
  m.entries.map Prod.fst

/-! ## The escaper -/

/-- The `case` list of the `switch` in `Escape`. -/
def Escape.reserved (r : Char) : Bool :=
  match r with
  | '\\' | '/' | '+' | '-' | '!' | '(' | ')' | ':' | '^' | '[' | ']' | '"' | '{' | '}'
  | '~' | '*' | '?' | '|' | '&' => true
  | _ => false

/-- The body of the loop of `Escape`: one rune `r` is written to the buffer `b`. -/
def Escape.step (b : List Char) (r : Char) : List Char :=
  let b := if Escape.reserved r then b ++ ['\\'] else b
  b ++ [r]

/-- Source `Escape` escapes a string for a lucene query: the function on a text, that is
on the code points of a well-formed UTF-8 string. `Escape.bytes` is the function on the
bytes of any Go string and `Escape_bytes_utf8` relates the two. -/
def Escape (s : String) : String :=
  ⟨s.data.foldl Escape.step []⟩

/-! ## Builder operations -/

/-- Replace the component at position `h` of a list. -/
def queryComponents.modifyAt (f : queryComponent → queryComponent) :
    Nat → queryComponents → queryComponents
  | _, [] => []
  | 0, x :: xs => f x :: xs
  | h + 1, x :: xs => x :: queryComponents.modifyAt f h xs

/-- A call chained on the `*Index` returned by `Query.Index`: `f` runs on the index at
position `h` of the list of `q`. -/
def Query.atIndex (q : Query) (h : Nat) (f : Index → Index) : Query :=
  .mk q.isGroup (queryComponents.modifyAt
    (fun x => match x with
      | .index i => .index (f i)
      | x => x) h q.c)

/-- A call chained on the `*Query` returned by `Query.Group`: `f` runs on the group at
position `h` of the list of `q`. -/
def Query.atGroup (q : Query) (h : Nat) (f : Query → Query) : Query :=
  .mk q.isGroup (queryComponents.modifyAt
    (fun x => match x with
      | .query g => .query (f g)
      | x => x) h q.c)

/-- Source `new(Query)`. -/
def Query.new : Query :=
  .mk false []

/-- Source `func (q *Query) Group() *Query`: the updated receiver and the position of the new
group in its list. -/
def Query.Group (q : Query) : Query × Nat :=
  (.mk q.isGroup (q.c ++ [.query (.mk true [])]), q.c.length)

/-- Source `func (q *Query) Index(name string) *Index`: the updated receiver and the position of
the new index in its list. -/
def Query.Index (q : Query) (name : String) : Query × Nat :=
  (.mk q.isGroup (q.c ++ [.index (.mk name [])]), q.c.length)

/-- Source `func (q *Query) And()`. -/
def Query.And (q : Query) : Query :=
  .mk q.isGroup (q.c ++ [.keyword Keyword.And])

/-- Source `func (q *Query) Or()`. -/
def Query.Or (q : Query) : Query :=
  .mk q.isGroup (q.c ++ [.keyword Keyword.Or])

/-- Source `func (i *Index) And() *Index`. -/
def Index.And (i : Index) : Index :=
  .mk i.name (i.c ++ [.keyword Keyword.And])

/-- Source `func (i *Index) Or() *Index`. -/
def Index.Or (i : Index) : Index :=
  .mk i.name (i.c ++ [.keyword Keyword.Or])

/-- Source `func (i *Index) Is(v interface{}) *Index`. -/
def Index.Is (i : Index) (v : GoValue) : Index :=
  .mk i.name (i.c ++ [.value ⟨v⟩])

/-- Source `func (i *Index) Range(a, b interface{}) *Index`. -/
def Index.Range (i : Index) (a b : GoValue) : Index :=
  .mk i.name (i.c ++ [.range (.mk (.value ⟨a⟩) (.value ⟨b⟩))])

/-! ## Serialization -/

/-- Source `func (v queryValue) String() string`; the `default` case panics. -/
def queryValue.String (v : queryValue) : Except String String :=
  match v.t with
  | .keyword t => .ok t.String
  | .str t => .ok ("\"" ++ Escape t ++ "\"")
  | .int t => .ok (strconv.FormatInt t)
  | .uint t => .ok (strconv.FormatUint t)
  | .unsupported => .error "invalid query value type"

mutual
/-- The method `String` of the interface `queryComponent`, dispatched on the implementation. -/
def queryComponent.String : queryComponent → Except String String
  | .query q => q.String
  | .index i => i.String
  | .keyword k => .ok k.String
  | .value v => v.String
  | .range r => r.String
/-- Source `func (q *Query) String() string`. -/
def Query.String : Query → Except String String
  | .mk isGroup c => do
    let s ← queryComponents.strs c
    if isGroup then
      pure ("(" ++ strings.Join s " " ++ ")")
    else
      pure (strings.Join s " ")
/-- Source `func (i *Index) String() string`. -/
def Index.String : Index → Except String String
  | .mk name c => do
    let n := if name = "" then "default" else name
    let s ← queryComponents.strs c
    pure (n ++ ":(" ++ strings.Join s " " ++ ")")
/-- Source `func (r queryRange) String() string`. -/
def queryRange.String : queryRange → Except String String
  | .mk v0 v1 => do
    let a ← v0.String
    let b ← v1.String
    pure ("[" ++ a ++ " TO " ++ b ++ "]")
/-- The loop of `queryComponents.String`: the slice `a` of the components' strings. -/
def queryComponents.strs : List queryComponent → Except String (List String)
  | [] => pure []
  | v :: rest => do
    let x ← v.String
    let a ← queryComponents.strs rest
    pure (x :: a)
end

/-- Source `func (c queryComponents) String() string`. -/
def queryComponents.String (c : queryComponents) : Except String String := do
  let a ← queryComponents.strs c
  pure (strings.Join a " ")

/-! ## The shorthand parser -/

/-- The variables `q` and `i` of `ParseQuery`. -/
structure ParseQuery.State where
  q : Query
  i : Nat

/-- The loop `for k, v := range indexMap` of `ParseQuery`, for a token split into `c2_0`
and `c2_1`; it ends at the first key equal to `c2_0` (`break`). -/
def ParseQuery.rangeIndexMap (c2_0 c2_1 : String) :
    List (String × String) → ParseQuery.State → ParseQuery.State
  | [], st => st
  | (k, v) :: rest, st =>
    if k = c2_0 then
      let k := if v ≠ "" then v else k
      let q := if st.i > 0 then st.q.And else st.q
      let (q, h) := q.Index k
      let q := q.atIndex h (fun n => n.Is (.str c2_1))
      ⟨q, st.i + 1⟩
    else
      ParseQuery.rangeIndexMap c2_0 c2_1 rest st

/-- The body of the loop `for _, part := range c` of `ParseQuery`. -/
def ParseQuery.step (indexMap : GoMap) (st : ParseQuery.State) (part : String) :
    ParseQuery.State :=
  if part.length > 0 then
    match strings.SplitN part ':' 2 with
    | [c2_0, c2_1] => ParseQuery.rangeIndexMap c2_0 c2_1 indexMap.entries st
    | _ =>
      let q := if st.i > 0 then st.q.And else st.q
      let (q, h) := q.Index ""
      let q := q.atIndex h (fun n => n.Is (.str part))
      ⟨q, st.i + 1⟩
  else st

/-- Source `ParseQuery` parses a string into a Query; the boolean is `i > 0`. -/
def ParseQuery (query : String) (indexMap : GoMap) : Query × Bool :=
  let c := strings.Split query ' '
  let st := c.foldl (ParseQuery.step indexMap) ⟨Query.new, 0⟩
  (st.q, decide (st.i > 0))

/-! ## Definitions used to state the properties -/

/-- The text of a token before its first colon (the whole token when it has no colon). -/
def ParseQuery.fieldOf (part : String) : String :=
  ⟨part.data.takeWhile (fun c => c != ':')⟩

/-- The text of a token after its first colon. -/
def ParseQuery.valueOf (part : String) : String :=
  ⟨(part.data.dropWhile (fun c => c != ':')).tail⟩

/-- The clause a token stands for, if it is accepted, as its field name and its value: an
empty token and a token whose text before the first colon is not a key give none. -/
def ParseQuery.clause (m : GoMap) (part : String) : Option (String × String) :=
  if part.length > 0 then
    if ':' ∈ part.data then
      (m.entries.find? (fun e => e.1 = ParseQuery.fieldOf part)).map
        (fun e => (if e.2 ≠ "" then e.2 else e.1, ParseQuery.valueOf part))
    else
      some ("", part)
  else none

/-- The clauses of a list of tokens, in order. -/
def ParseQuery.clauses (m : GoMap) (parts : List String) : List (String × String) :=
  parts.filterMap (ParseQuery.clause m)

/-- The index built by `Index(name).Is(value)` for a text `value`. -/
def ParseQuery.toIndex (x : String × String) : Index :=
  .mk x.1 [.value ⟨.str x.2⟩]

/-- The text of the clause `Index(name).Is(value)` for a text `value`. -/
def ParseQuery.clauseText (x : String × String) : String :=
  (if x.1 = "" then "default" else x.1) ++ ":(" ++ ("\"" ++ Escape x.2 ++ "\"") ++ ")"

/-- A list of clauses with the keyword `AND` between consecutive ones. -/
def ParseQuery.joined : List Index → queryComponents
  | [] => []
  | [x] => [.index x]
  | x :: y :: rest => .index x :: .keyword Keyword.And :: ParseQuery.joined (y :: rest)

/-- A list of texts with the text `AND` between consecutive ones. -/
def ParseQuery.joinedTexts : List String → List String
  | [] => []
  | [x] => [x]
  | x :: y :: rest => x :: "AND" :: ParseQuery.joinedTexts (y :: rest)

/-- The state after a clause was accepted: `AND` is appended first unless the clause is
the first one, then the clause, and the counter goes up by one. -/
def ParseQuery.push (st : ParseQuery.State) (x : Index) : ParseQuery.State :=
  ⟨.mk st.q.isGroup ((if st.i > 0 then st.q.c ++ [.keyword Keyword.And] else st.q.c)
    ++ [.index x]), st.i + 1⟩

/-- The 19 reserved characters, as the specification lists them. -/
def Escape.reservedChars : List Char :=
  ['\\', '/', '+', '-', '!', '(', ')', ':', '^', '[', ']', '"', '{', '}', '~', '*', '?',
    '|', '&']

/-- The escaper in the words of the specification: every reserved character is preceded by
one backslash, every other character is kept. -/
def Escape.spec (s : String) : String :=
  ⟨s.data.flatMap (fun c => if c ∈ Escape.reservedChars then ['\\', c] else [c])⟩

/-- The number a string of decimal digits denotes, read from the left. -/
def strconv.readDigits (ds : List Char) : Nat :=
  ds.foldl (fun a c => 10 * a + (c.toNat - 48)) 0

/-- Read a decimal integer: an optional minus sign, then at least one decimal digit. -/
def strconv.readDecimal (s : String) : Option Int :=
  match s.data with
  | '-' :: ds =>
    if ds ≠ [] ∧ ds.all Char.isDigit = true then some (-(strconv.readDigits ds : Int))
    else none
  | ds =>
    if ds ≠ [] ∧ ds.all Char.isDigit = true then some (strconv.readDigits ds : Int)
    else none

/-- The alias map `known -> k`. -/
def aliasKnown : GoMap :=
  ⟨[("known", "k")], by decide⟩

/-- The alias map `status -> "", priority -> issue_priority`, enumerated in this order. -/
def aliasStatusPriority : GoMap :=
  ⟨[("status", ""), ("priority", "issue_priority")], by decide⟩

/-- The alias map `aliasStatusPriority`, enumerated in the other order. -/
def aliasStatusPriorityRev : GoMap :=
  ⟨[("priority", "issue_priority"), ("status", "")], by decide⟩

/-- The empty alias map. -/
def aliasEmpty : GoMap :=
  ⟨[], by decide⟩

/-! ## Value leaves and faults -/

mutual
/-- The value leaves reachable in a component: the component itself when it is a value,
the leaves of both bounds of a range, the leaves of the list of an index or a query. -/
def queryComponent.leaves : queryComponent → List queryValue
  | .query q => q.leaves
  | .index i => i.leaves
  | .keyword _ => []
  | .value v => [v]
  | .range r => r.leaves
/-- The value leaves reachable in a query (group or root). -/
def Query.leaves : Query → List queryValue
  | .mk _ c => queryComponents.leaves c
/-- The value leaves reachable in an index. -/
def Index.leaves : Index → List queryValue
  | .mk _ c => queryComponents.leaves c
/-- The value leaves reachable in a range. -/
def queryRange.leaves : queryRange → List queryValue
  | .mk v0 v1 => v0.leaves ++ v1.leaves
/-- The value leaves reachable in a list of components. -/
def queryComponents.leaves : List queryComponent → List queryValue
  | [] => []
  | v :: rest => v.leaves ++ queryComponents.leaves rest
end

/-- The message of the `panic` of `queryValue.String`. -/
def panicMessage : String :=
  "invalid query value type"

/-- The outcome of rendering described by the leaves: a fault when some leaf wraps an
unsupported scalar, a text otherwise. -/
def Outcome (r : Except String String) (ls : List queryValue) : Prop :=
  ((∃ v ∈ ls, v.t = .unsupported) ∧ r = .error panicMessage) ∨
  ((∀ v ∈ ls, v.t ≠ .unsupported) ∧ ∃ s, r = .ok s)

/-- The outcome of rendering a list described by the leaves. -/
def OutcomeList (r : Except String (List String)) (ls : List queryValue) : Prop :=
  ((∃ v ∈ ls, v.t = .unsupported) ∧ r = .error panicMessage) ∨
  ((∀ v ∈ ls, v.t ≠ .unsupported) ∧ ∃ s, r = .ok s)





/-- A query built with nested groups: the root holds a group, which holds the index `a`
with the text `x`, the operator `OR` and a second group holding the index `b` with the
integer `1`. -/
def nestedGroups : Query :=
  let r := Query.new.Group
  r.1.atGroup r.2 (fun g =>
    let a := g.Index "a"
    let g := a.1.atIndex a.2 (fun i => i.Is (.str "x"))
    let g := g.Or
    let s := g.Group
    s.1.atGroup s.2 (fun g2 =>
      let b := g2.Index "b"
      b.1.atIndex b.2 (fun i => i.Is (.int 1))))







/-- The scan that undoes the escaper: from left to right, each backslash is dropped and the
character after it is kept as it is; a backslash at the very end is dropped. -/
def Unescape.runes : List Char → List Char
  | [] => []
  | [c] => if c = '\\' then [] else [c]
  | c :: d :: rest =>
    if c = '\\' then d :: Unescape.runes rest else c :: Unescape.runes (d :: rest)

/-- The scan of `Unescape.runes` on a string. -/
def Unescape (s : String) : String :=
  ⟨Unescape.runes s.data⟩

/-- The scan of an escaped text from left to right, each backslash consuming the character
after it: the result is `false` when the text ends on a backslash that has nothing to
consume or when a reserved character stands outside such a pair. -/
def Escape.wellEscaped : List Char → Bool
  | [] => true
  | [c] => !Escape.reserved c
  | c :: d :: rest =>
    if c = '\\' then Escape.wellEscaped rest
    else !Escape.reserved c && Escape.wellEscaped (d :: rest)

/-- The positions, counted from `i`, of the double quotes of a text that are not consumed
by a backslash in the scan from left to right. -/
def Escape.unescapedQuotes : Nat → List Char → List Nat
  | _, [] => []
  | i, [c] => if c = '"' then [i] else []
  | i, c :: d :: rest =>
    if c = '\\' then Escape.unescapedQuotes (i + 2) rest
    else (if c = '"' then [i] else []) ++ Escape.unescapedQuotes (i + 1) (d :: rest)

/-! ## The escaper on the bytes of a Go string

A Go `string` is a sequence of bytes that need not be well-formed UTF-8. The definitions
below embed `Escape` on such sequences: `for _, r := range s` decodes one rune at a time
and yields `U+FFFD` for one byte where no well-formed sequence starts, and `WriteRune`
writes the UTF-8 encoding of a rune. `Escape` above is the same function on well-formed
text, see `Escape_bytes_utf8`. A failure to allocate the buffer is outside the embedding. -/

/-- The rune `utf8.RuneError`, `U+FFFD`. -/
def utf8.RuneError : Nat := 0xFFFD

/-- Library function `utf8.DecodeRuneInString`, which is also the decoding step of a
`range` loop over a string: the first rune of the bytes and the number of bytes it takes;
`(RuneError, 1)` when no well-formed sequence starts at the first byte (a byte that cannot
start one, a missing or wrong continuation byte, an overlong form, a surrogate, a value
above `U+10FFFF`). -/
def utf8.DecodeRuneInString : List Nat → Nat × Nat
  | [] => (utf8.RuneError, 0)
  | s0 :: rest =>
    if s0 < 0x80 then (s0, 1)
    else if 0xC2 ≤ s0 ∧ s0 ≤ 0xDF then
      match rest with
      | s1 :: _ =>
        if 0x80 ≤ s1 ∧ s1 ≤ 0xBF then (s0 % 0x20 * 0x40 + s1 % 0x40, 2)
        else (utf8.RuneError, 1)
      | _ => (utf8.RuneError, 1)
    else if 0xE0 ≤ s0 ∧ s0 ≤ 0xEF then
      match rest with
      | s1 :: s2 :: _ =>
        if (if s0 = 0xE0 then 0xA0 else 0x80) ≤ s1 ∧ s1 ≤ (if s0 = 0xED then 0x9F else 0xBF)
            ∧ 0x80 ≤ s2 ∧ s2 ≤ 0xBF then
          (s0 % 0x10 * 0x1000 + s1 % 0x40 * 0x40 + s2 % 0x40, 3)
        else (utf8.RuneError, 1)
      | _ => (utf8.RuneError, 1)
    else if 0xF0 ≤ s0 ∧ s0 ≤ 0xF4 then
      match rest with
      | s1 :: s2 :: s3 :: _ =>
        if (if s0 = 0xF0 then 0x90 else 0x80) ≤ s1 ∧ s1 ≤ (if s0 = 0xF4 then 0x8F else 0xBF)
            ∧ 0x80 ≤ s2 ∧ s2 ≤ 0xBF ∧ 0x80 ≤ s3 ∧ s3 ≤ 0xBF then
          (s0 % 0x08 * 0x40000 + s1 % 0x40 * 0x1000 + s2 % 0x40 * 0x40 + s3 % 0x40, 4)
        else (utf8.RuneError, 1)
      | _ => (utf8.RuneError, 1)
    else (utf8.RuneError, 1)

/-- Library function `utf8.AppendRune` on an empty slice, the bytes `WriteRune` writes: the
UTF-8 encoding of the rune, a surrogate or a value above `U+10FFFF` being written as
`U+FFFD`. -/
def utf8.AppendRune (r : Nat) : List Nat :=
  if r < 0x80 then [r]
  else if r < 0x800 then [0xC0 + r / 0x40, 0x80 + r % 0x40]
  else if 0x10FFFF < r ∨ (0xD800 ≤ r ∧ r ≤ 0xDFFF) then [0xEF, 0xBF, 0xBD]
  else if r < 0x10000 then [0xE0 + r / 0x1000, 0x80 + r / 0x40 % 0x40, 0x80 + r % 0x40]
  else [0xF0 + r / 0x40000, 0x80 + r / 0x1000 % 0x40, 0x80 + r / 0x40 % 0x40,
    0x80 + r % 0x40]

/-- The runes a `range` loop over the bytes of a string yields, in order; `skip` counts the
bytes still to pass over after a rune of several bytes. -/
def utf8.rangeRunes : Nat → List Nat → List Nat
  | _, [] => []
  | skip + 1, _ :: rest => utf8.rangeRunes skip rest
  | 0, s0 :: rest =>
    (utf8.DecodeRuneInString (s0 :: rest)).1 ::
      utf8.rangeRunes ((utf8.DecodeRuneInString (s0 :: rest)).2 - 1) rest

/-- The bytes of a text: the UTF-8 encodings of its code points, in order. -/
def utf8.bytes (s : String) : List Nat :=
  s.data.flatMap (fun c => utf8.AppendRune c.toNat)

/-- The body of the loop of `Escape` on bytes: a backslash is written before a reserved
rune, then the rune is written. -/
def Escape.bytesStep (b : List Nat) (r : Nat) : List Nat :=
  let b := if Escape.reserved (Char.ofNat r) then b ++ utf8.AppendRune 0x5C else b
  b ++ utf8.AppendRune r

/-- The source function `Escape` on the bytes of a Go string, with an `int` of `w` bits:
`b.Grow(len(s) * 2)` panics when the product, wrapped to `w` bits, is negative; then the
loop runs over the runes of `s`. -/
def Escape.bytes (w : Nat) (s : List Nat) : Except String (List Nat) :=
  if 2 ^ (w - 1) ≤ (s.length * 2) % 2 ^ w then
    .error "bytes.Buffer.Grow: negative count"
  else
    .ok ((utf8.rangeRunes 0 s).foldl Escape.bytesStep [])

/-- The scan that undoes the escaper on bytes: each backslash byte is dropped and the byte
after it is kept as it is. -/
def Unescape.bytes : List Nat → List Nat
  | [] => []
  | [c] => if c = 0x5C then [] else [c]
  | c :: d :: rest =>
    if c = 0x5C then d :: Unescape.bytes rest else c :: Unescape.bytes (d :: rest)





/-- The text starts with an operator: it is `AND` or `OR`, or it starts with one of them
followed by a space. -/
def startsWithOperator (text : String) : Bool :=
  decide (text = "AND") || decide (text = "OR") ||
    "AND ".data.isPrefixOf text.data || "OR ".data.isPrefixOf text.data

/-- The text ends with an operator: it is `AND` or `OR`, or it ends with one of them
preceded by a space. -/
def endsWithOperator (text : String) : Bool :=
  decide (text = "AND") || decide (text = "OR") ||
    " AND".data.isSuffixOf text.data || " OR".data.isSuffixOf text.data

/-- The alias map `a -> AND b`, whose value contains a space. -/
def aliasAndB : GoMap :=
  ⟨[("a", "AND b")], by decide⟩





/-! ## Lemmas on the library functions -/

theorem span_of_not_mem (sep : Char) (a : List Char) (h : sep ∉ a) :
    a.span (fun c => c != sep) = (a, []) := by
  rw [List.span_eq_take_drop]
  have h1 : ∀ x ∈ a, (fun c => c != sep) x = true := by
    intro x hx
    simp only [bne_iff_ne, ne_eq]
    intro hxs
    exact h (hxs ▸ hx)
  rw [List.takeWhile_eq_self_iff.mpr h1, List.dropWhile_eq_nil_iff.mpr h1]

theorem span_append_sep (sep : Char) (a rest : List Char) (h : sep ∉ a) :
    (a ++ sep :: rest).span (fun c => c != sep) = (a, sep :: rest) := by
  induction a with
  | nil => simp [List.span_eq_take_drop]
  | cons x xs ih =>
    have hx : x ≠ sep := fun e => h (e ▸ List.mem_cons_self _ _)
    have hxs : sep ∉ xs := fun e => h (List.mem_cons_of_mem _ e)
    have ih2 := ih hxs
    rw [List.span_eq_take_drop] at ih2 ⊢
    simp only [Prod.mk.injEq] at ih2 ⊢
    simp [hx, ih2.1, ih2.2]

theorem genSplit_of_not_mem (sep : Char) (k : Nat) (a : List Char) (h : sep ∉ a) :
    strings.genSplit sep k a = [a] := by
  cases k with
  | zero => rfl
  | succ k => rw [strings.genSplit, span_of_not_mem sep a h]

theorem genSplit_append_sep (sep : Char) (k : Nat) (a rest : List Char) (h : sep ∉ a) :
    strings.genSplit sep (k + 1) (a ++ sep :: rest) = a :: strings.genSplit sep k rest := by
  rw [strings.genSplit, span_append_sep sep a rest h]

theorem SplitN_two_of_not_mem (t : String) (h : ':' ∉ t.data) :
    strings.SplitN t ':' 2 = [t] := by
  simp only [strings.SplitN]
  rw [genSplit_of_not_mem ':' _ t.data h]
  rfl

theorem SplitN_two_of_mem (t : String) (h : ':' ∈ t.data) :
    strings.SplitN t ':' 2 = [ParseQuery.fieldOf t, ParseQuery.valueOf t] := by
  simp only [strings.SplitN]
  rw [strings.genSplit, List.span_eq_take_drop]
  have hd : t.data.dropWhile (fun c => c != ':') ≠ [] := by
    intro hnil
    rw [List.dropWhile_eq_nil_iff] at hnil
    have := hnil ':' h
    simp at this
  cases hdw : t.data.dropWhile (fun c => c != ':') with
  | nil => exact absurd hdw hd
  | cons x rest =>
    simp only [strings.genSplit, List.map_cons, List.map_nil, ParseQuery.fieldOf,
      ParseQuery.valueOf, hdw, List.tail_cons]

theorem fieldOf_append (p s : String) (h : ':' ∉ p.data) :
    ParseQuery.fieldOf (p ++ ":" ++ s) = p := by
  have hd : (p ++ ":" ++ s).data = p.data ++ ':' :: s.data := by
    simp [String.data_append]
  have := span_append_sep ':' p.data s.data h
  rw [List.span_eq_take_drop] at this
  simp only [Prod.mk.injEq] at this
  simp only [ParseQuery.fieldOf, hd, this.1]

theorem valueOf_append (p s : String) (h : ':' ∉ p.data) :
    ParseQuery.valueOf (p ++ ":" ++ s) = s := by
  have hd : (p ++ ":" ++ s).data = p.data ++ ':' :: s.data := by
    simp [String.data_append]
  have := span_append_sep ':' p.data s.data h
  rw [List.span_eq_take_drop] at this
  simp only [Prod.mk.injEq] at this
  simp only [ParseQuery.valueOf, hd, this.2, List.tail_cons]

theorem colon_mem_append (p s : String) : ':' ∈ (p ++ ":" ++ s).data := by
  simp [String.data_append]

theorem length_pos_append (p s : String) : (p ++ ":" ++ s).length > 0 := by
  have hd : (p ++ ":" ++ s).data = p.data ++ ':' :: s.data := by
    simp [String.data_append]
  show (p ++ ":" ++ s).data.length > 0
  rw [hd]
  simp

/-! ## Lemmas on the parser -/

theorem modifyAt_length (f : queryComponent → queryComponent) (c : queryComponents)
    (x : queryComponent) :
    queryComponents.modifyAt f c.length (c ++ [x]) = c ++ [f x] := by
  induction c with
  | nil => rfl
  | cons y ys ih =>
    show y :: queryComponents.modifyAt f ys.length (ys ++ [x]) = y :: (ys ++ [f x])
    rw [ih]

theorem Index_Is_chain (q : Query) (name : String) (v : GoValue) :
    (q.Index name).1.atIndex (q.Index name).2 (fun n => n.Is v) =
      .mk q.isGroup (q.c ++ [.index (.mk name [.value ⟨v⟩])]) := by
  simp only [Query.Index, Query.atIndex, Query.isGroup, Query.c, modifyAt_length]
  rfl

theorem accept_eq_push (st : ParseQuery.State) (name value : String) :
    (⟨((if st.i > 0 then st.q.And else st.q).Index name).1.atIndex
        ((if st.i > 0 then st.q.And else st.q).Index name).2 (fun n => n.Is (.str value)),
      st.i + 1⟩ : ParseQuery.State) =
      ParseQuery.push st (ParseQuery.toIndex (name, value)) := by
  rw [Index_Is_chain]
  by_cases h : st.i > 0
  · simp [h, ParseQuery.push, ParseQuery.toIndex, Query.And, Query.isGroup, Query.c]
  · simp [h, ParseQuery.push, ParseQuery.toIndex]

theorem rangeIndexMap_eq (a b : String) (es : List (String × String))
    (st : ParseQuery.State) :
    ParseQuery.rangeIndexMap a b es st =
      match es.find? (fun e => e.1 = a) with
      | none => st
      | some e => ParseQuery.push st (ParseQuery.toIndex (if e.2 ≠ "" then e.2 else e.1, b)) := by
  induction es with
  | nil => rfl
  | cons e rest ih =>
    obtain ⟨k, v⟩ := e
    by_cases hk : k = a
    · simp only [ParseQuery.rangeIndexMap, hk, if_true, List.find?_cons, decide_True]
      exact accept_eq_push st _ _
    · simp only [ParseQuery.rangeIndexMap, hk, if_false, List.find?_cons, decide_False]
      exact ih

theorem step_eq (m : GoMap) (st : ParseQuery.State) (part : String) :
    ParseQuery.step m st part =
      match ParseQuery.clause m part with
      | none => st
      | some x => ParseQuery.push st (ParseQuery.toIndex x) := by
  unfold ParseQuery.step ParseQuery.clause
  by_cases hl : part.length > 0
  · simp only [hl, if_true]
    by_cases hc : ':' ∈ part.data
    · simp only [hc, if_true, SplitN_two_of_mem part hc, rangeIndexMap_eq]
      cases List.find? (fun e => decide (e.1 = ParseQuery.fieldOf part)) m.entries <;> rfl
    · simp only [hc, if_false, SplitN_two_of_not_mem part hc]
      exact accept_eq_push st _ _
  · simp only [hl, if_false]

theorem joined_append (xs : List Index) (x : Index) :
    ParseQuery.joined (xs ++ [x]) =
      (if xs.length > 0 then ParseQuery.joined xs ++ [.keyword Keyword.And]
        else ParseQuery.joined xs) ++ [.index x] := by
  induction xs with
  | nil => rfl
  | cons y ys ih =>
    cases ys with
    | nil => rfl
    | cons z zs =>
      show queryComponent.index y :: queryComponent.keyword Keyword.And ::
        ParseQuery.joined ((z :: zs) ++ [x]) = _
      rw [ih]
      simp [ParseQuery.joined]

theorem foldl_step_eq (m : GoMap) (parts : List String) (xs : List Index) :
    parts.foldl (ParseQuery.step m) ⟨.mk false (ParseQuery.joined xs), xs.length⟩ =
      ⟨.mk false (ParseQuery.joined
          (xs ++ (ParseQuery.clauses m parts).map ParseQuery.toIndex)),
        (xs ++ (ParseQuery.clauses m parts).map ParseQuery.toIndex).length⟩ := by
  induction parts generalizing xs with
  | nil => simp [ParseQuery.clauses]
  | cons p ps ih =>
    rw [List.foldl_cons, step_eq]
    cases hc : ParseQuery.clause m p with
    | none =>
      simp only [ParseQuery.clauses, List.filterMap_cons, hc]
      exact ih xs
    | some x =>
      have hpush : ParseQuery.push ⟨.mk false (ParseQuery.joined xs), xs.length⟩
          (ParseQuery.toIndex x) =
          ⟨.mk false (ParseQuery.joined (xs ++ [ParseQuery.toIndex x])),
            (xs ++ [ParseQuery.toIndex x]).length⟩ := by
        simp only [ParseQuery.push, joined_append, Query.isGroup, Query.c,
          List.length_append, List.length_singleton]
      simp only [hpush, ParseQuery.clauses, List.filterMap_cons, hc]
      have := ih (xs ++ [ParseQuery.toIndex x])
      simp only [ParseQuery.clauses, List.append_assoc, List.singleton_append] at this
      simp only [List.map_cons]
      exact this

/-- The parser accepts the clauses of the tokens of its input, in order, with `AND`
between consecutive ones; the boolean tells whether there is a clause. -/
theorem ParseQuery_eq (query : String) (m : GoMap) :
    ParseQuery query m =
      (.mk false (ParseQuery.joined
          ((ParseQuery.clauses m (strings.Split query ' ')).map ParseQuery.toIndex)),
        decide ((ParseQuery.clauses m (strings.Split query ' ')).length > 0)) := by
  have := foldl_step_eq m (strings.Split query ' ') []
  simp only [ParseQuery.joined, List.length_nil, List.nil_append, List.length_map] at this
  simp only [ParseQuery, Query.new, this]

/-! ## Lemmas on serialization -/

theorem toIndex_String (x : String × String) :
    (ParseQuery.toIndex x).String = .ok (ParseQuery.clauseText x) := by
  rfl

theorem strs_joined (xs : List (String × String)) :
    queryComponents.strs (ParseQuery.joined (xs.map ParseQuery.toIndex)) =
      .ok (ParseQuery.joinedTexts (xs.map ParseQuery.clauseText)) := by
  induction xs with
  | nil => rfl
  | cons x rest ih =>
    cases rest with
    | nil => rfl
    | cons y ys =>
      simp only [List.map_cons, ParseQuery.joined, ParseQuery.joinedTexts] at ih ⊢
      simp only [queryComponents.strs, queryComponent.String, toIndex_String, ih]
      rfl

theorem Join_joinedTexts (ts : List String) :
    strings.Join (ParseQuery.joinedTexts ts) " " = strings.Join ts " AND " := by
  induction ts with
  | nil => rfl
  | cons x rest ih =>
    cases rest with
    | nil => rfl
    | cons y ys =>
      have h1 : strings.Join (ParseQuery.joinedTexts (x :: y :: ys)) " " =
          x ++ " " ++ ("AND" ++ " " ++ strings.Join (ParseQuery.joinedTexts (y :: ys)) " ") := by
        cases ys <;> rfl
      rw [h1, ih]
      show _ = x ++ " AND " ++ strings.Join (y :: ys) " AND "
      have h2 : (" AND " : String) = " " ++ "AND" ++ " " := by decide
      rw [h2]
      simp only [String.append_assoc]

/-- The text of a parsed query: the texts of the clauses of its tokens joined by `AND`. -/
theorem ParseQuery_String (query : String) (m : GoMap) :
    (ParseQuery query m).1.String =
      .ok (strings.Join ((ParseQuery.clauses m (strings.Split query ' ')).map
        ParseQuery.clauseText) " AND ") := by
  rw [ParseQuery_eq]
  simp only [Query.String, strs_joined]
  simp only [bind, Except.bind, pure, Except.pure, Join_joinedTexts]
  rfl

/-! ## Lemmas on tokens -/

theorem Split_of_not_mem (t : String) (h : ' ' ∉ t.data) : strings.Split t ' ' = [t] := by
  simp only [strings.Split]
  rw [genSplit_of_not_mem ' ' _ t.data h]
  rfl

theorem Join_cons_cons_data (a b : String) (rest : List String) :
    (strings.Join (a :: b :: rest) " ").data =
      a.data ++ ' ' :: (strings.Join (b :: rest) " ").data := by
  show (a ++ " " ++ strings.Join (b :: rest) " ").data = _
  simp [String.data_append]

theorem Split_Join (ts : List String) (hne : ts ≠ []) (h : ∀ t ∈ ts, ' ' ∉ t.data) :
    strings.Split (strings.Join ts " ") ' ' = ts := by
  induction ts with
  | nil => exact absurd rfl hne
  | cons a rest ih =>
    have ha : ' ' ∉ a.data := h a (List.mem_cons_self _ _)
    cases rest with
    | nil => exact Split_of_not_mem a ha
    | cons b r =>
      have ih2 := ih (List.cons_ne_nil _ _) (fun t ht => h t (List.mem_cons_of_mem _ ht))
      simp only [strings.Split, strings.Count] at ih2 ⊢
      rw [Join_cons_cons_data, List.count_append, List.count_cons_self,
        List.count_eq_zero.mpr ha, Nat.zero_add, genSplit_append_sep _ _ _ _ ha,
        List.map_cons, ih2]

theorem genSplit_all_sep (sep : Char) (l : List Char) (h : ∀ c ∈ l, c = sep) :
    strings.genSplit sep (l.count sep) l = List.replicate (l.length + 1) [] := by
  induction l with
  | nil => rfl
  | cons x xs ih =>
    have hx : x = sep := h x (List.mem_cons_self _ _)
    subst hx
    have ih2 := ih (fun c hc => h c (List.mem_cons_of_mem _ hc))
    rw [List.count_cons_self]
    have := genSplit_append_sep x (xs.count x) [] xs (List.not_mem_nil _)
    simp only [List.nil_append] at this
    rw [this, ih2]
    rfl

theorem clauses_replicate_empty (m : GoMap) (n : Nat) :
    ParseQuery.clauses m (List.replicate n "") = [] := by
  induction n with
  | zero => rfl
  | succ k ih =>
    simp only [ParseQuery.clauses, List.replicate_succ, List.filterMap_cons] at ih ⊢
    rw [ih]
    rfl

theorem clauses_Split_spaces (m : GoMap) (s : String) (h : ∀ c ∈ s.data, c = ' ') :
    ParseQuery.clauses m (strings.Split s ' ') = [] := by
  simp only [strings.Split, strings.Count]
  rw [genSplit_all_sep ' ' s.data h, List.map_replicate]
  exact clauses_replicate_empty m _

theorem find?_of_mem_nodup (es : List (String × String)) (p v : String)
    (hn : (es.map Prod.fst).Nodup) (hm : (p, v) ∈ es) :
    es.find? (fun e => e.1 = p) = some (p, v) := by
  induction es with
  | nil => cases hm
  | cons e rest ih =>
    rw [List.map_cons, List.nodup_cons] at hn
    rcases List.mem_cons.mp hm with heq | hmem
    · subst heq
      simp [List.find?_cons]
    · have hne : e.1 ≠ p := by
        intro he
        apply hn.1
        rw [he]
        exact List.mem_map.mpr ⟨(p, v), hmem, rfl⟩
      simp only [List.find?_cons, hne, decide_False]
      exact ih hn.2 hmem

theorem find?_of_not_mem_keys (m : GoMap) (p : String) (h : p ∉ m.keys) :
    m.entries.find? (fun e => e.1 = p) = none := by
  rw [List.find?_eq_none]
  intro e he hp
  apply h
  simp only [decide_eq_true_eq] at hp
  exact List.mem_map.mpr ⟨e, he, hp⟩

theorem clause_unknown (m : GoMap) (p s : String) (hp : ':' ∉ p.data) (hk : p ∉ m.keys) :
    ParseQuery.clause m (p ++ ":" ++ s) = none := by
  simp only [ParseQuery.clause, length_pos_append, colon_mem_append, if_true,
    fieldOf_append p s hp, find?_of_not_mem_keys m p hk, Option.map_none']

theorem clause_known (m : GoMap) (p s v : String) (hp : ':' ∉ p.data)
    (hk : (p, v) ∈ m.entries) :
    ParseQuery.clause m (p ++ ":" ++ s) = some (if v ≠ "" then v else p, s) := by
  simp only [ParseQuery.clause, length_pos_append, colon_mem_append, if_true,
    fieldOf_append p s hp, valueOf_append p s hp,
    find?_of_mem_nodup m.entries p v m.nodup hk, Option.map_some']

theorem token_no_space (p s : String) (hp : ' ' ∉ p.data) (hs : ' ' ∉ s.data) :
    ' ' ∉ (p ++ ":" ++ s).data := by
  simp [String.data_append, hp, hs]

theorem clauseText_eq (n v : String) :
    ParseQuery.clauseText (n, v) =
      (if n = "" then "default" else n) ++ ":(\"" ++ Escape v ++ "\")" := by
  apply String.ext
  simp [ParseQuery.clauseText, String.data_append]

theorem clause_plain (m : GoMap) (t : String) (hne : t ≠ "") (hc : ':' ∉ t.data) :
    ParseQuery.clause m t = some ("", t) := by
  have hl : t.length > 0 := by
    show t.data.length > 0
    apply List.length_pos.mpr
    intro hnil
    exact hne (String.ext hnil)
  simp only [ParseQuery.clause, hl, hc, if_true, if_false]

theorem clauses_plain (m : GoMap) (ts : List String)
    (h : ∀ t ∈ ts, t ≠ "" ∧ ' ' ∉ t.data ∧ ':' ∉ t.data) :
    ParseQuery.clauses m ts = ts.map (fun t => ("", t)) := by
  induction ts with
  | nil => rfl
  | cons a rest ih =>
    have ha := h a (List.mem_cons_self _ _)
    have ih2 := ih (fun t ht => h t (List.mem_cons_of_mem _ ht))
    simp only [ParseQuery.clauses, List.filterMap_cons, clause_plain m a ha.1 ha.2.2,
      List.map_cons] at ih2 ⊢
    rw [ih2]

/-! ## The claims -/

/-- C1 (counterexample): with the alias map `known -> k`, the token `bogus:value`, whose
text before the colon is not a key, is not accepted: `ParseQuery` returns the empty root
query and `false`, not `true` and a query rendering `default:("bogus:value")`. -/
theorem C1_bogus_value_not_accepted :
    ParseQuery "bogus:value" aliasKnown = (Query.mk false [], false) ∧
    ¬ ((ParseQuery "bogus:value" aliasKnown).2 = true ∧
        (ParseQuery "bogus:value" aliasKnown).1.String =
          .ok "default:(\"bogus:value\")") := by
  refine ⟨rfl, ?_⟩
  rintro ⟨h, _⟩
  exact absurd h (by decide)

/-- C1 (amended): a token `p:s` whose text `p` before the first colon is not a key of the
alias map is skipped: the loop body leaves the query and the counter of accepted clauses
unchanged (no clause, no `AND`), and as the only token of the input it gives the empty
root query, `matched = false` and the empty text. -/
theorem C1_unknown_field_token_skipped (p s : String) (m : GoMap)
    (hp : ':' ∉ p.data) (hps : ' ' ∉ p.data) (hs : ' ' ∉ s.data) (hk : p ∉ m.keys) :
    (∀ st : ParseQuery.State, ParseQuery.step m st (p ++ ":" ++ s) = st) ∧
    ParseQuery (p ++ ":" ++ s) m = (Query.mk false [], false) ∧
    (ParseQuery (p ++ ":" ++ s) m).1.String = .ok "" := by
  have hsplit := Split_of_not_mem _ (token_no_space p s hps hs)
  have hcl : ParseQuery.clauses m [p ++ ":" ++ s] = [] := by
    simp only [ParseQuery.clauses, List.filterMap_cons, clause_unknown m p s hp hk,
      List.filterMap_nil]
  refine ⟨?_, ?_, ?_⟩
  · intro st
    rw [step_eq, clause_unknown m p s hp hk]
  · rw [ParseQuery_eq, hsplit, hcl]
    rfl
  · rw [ParseQuery_String, hsplit, hcl]
    rfl

/-- Witness of C1 (amended): the token `bogus:value` and the alias map `known -> k`. -/
theorem C1_unknown_field_token_skipped_witness :
    (':' ∉ "bogus".data ∧ ' ' ∉ "bogus".data ∧ ' ' ∉ "value".data ∧
      "bogus" ∉ aliasKnown.keys) ∧
    (∀ st : ParseQuery.State, ParseQuery.step aliasKnown st "bogus:value" = st) ∧
    ParseQuery "bogus:value" aliasKnown = (Query.mk false [], false) ∧
    (ParseQuery "bogus:value" aliasKnown).1.String = .ok "" :=
  ⟨⟨by decide, by decide, by decide, by decide⟩,
    C1_unknown_field_token_skipped "bogus" "value" aliasKnown (by decide) (by decide)
      (by decide) (by decide)⟩

/-- C2 (counterexample): the parser wraps the text `3` of the token `priority:3`, so the
clause renders with a quoted value and the text of the query is not
`status:("open") AND issue_priority:(3)`. -/
theorem C2_priority_value_not_bare :
    (ParseQuery "status:open priority:3" aliasStatusPriority).1.String ≠
      .ok "status:(\"open\") AND issue_priority:(3)" := by
  have h : (ParseQuery "status:open priority:3" aliasStatusPriority).1.String =
      .ok "status:(\"open\") AND issue_priority:(\"3\")" := rfl
  rw [h]
  intro hc
  injection hc with hc
  exact absurd hc (by decide)

/-- C2 (amended): for the input `status:open priority:3` and the alias map
`status -> "", priority -> issue_priority`, in either order of enumeration, `ParseQuery`
returns `matched = true` and a query rendering
`status:("open") AND issue_priority:("3")`, both values being quoted texts. -/
theorem C2_status_priority_quoted :
    (ParseQuery "status:open priority:3" aliasStatusPriority).2 = true ∧
    (ParseQuery "status:open priority:3" aliasStatusPriority).1.String =
      .ok "status:(\"open\") AND issue_priority:(\"3\")" ∧
    (ParseQuery "status:open priority:3" aliasStatusPriorityRev).2 = true ∧
    (ParseQuery "status:open priority:3" aliasStatusPriorityRev).1.String =
      .ok "status:(\"open\") AND issue_priority:(\"3\")" ∧
    (ParseQuery "status:open priority:3" aliasStatusPriority).1 =
      Query.mk false
        [.index (.mk "status" [.value ⟨.str "open"⟩]), .keyword Keyword.And,
          .index (.mk "issue_priority" [.value ⟨.str "3"⟩])] :=
  ⟨rfl, rfl, rfl, rfl, rfl⟩

/-- C3: a single token `p:s` whose text `p` before the first colon is a key with value `v`
gives `matched = true` and the one clause `Index(n).Is(s)`, where `n` is `v` when `v` is
not empty and `p` otherwise; the query renders `<n or default>:("<Escape(s)>")`. -/
theorem C3_known_field_token (p s v n : String) (m : GoMap)
    (hp : ':' ∉ p.data) (hps : ' ' ∉ p.data) (hs : ' ' ∉ s.data)
    (hk : (p, v) ∈ m.entries) (hn : n = if v ≠ "" then v else p) :
    ParseQuery (p ++ ":" ++ s) m =
      (Query.mk false [.index (Index.mk n [.value ⟨.str s⟩])], true) ∧
    (ParseQuery (p ++ ":" ++ s) m).1 =
      (Query.new.Index n).1.atIndex (Query.new.Index n).2 (fun i => i.Is (.str s)) ∧
    (ParseQuery (p ++ ":" ++ s) m).1.String =
      .ok ((if n = "" then "default" else n) ++ ":(\"" ++ Escape s ++ "\")") := by
  have hsplit := Split_of_not_mem _ (token_no_space p s hps hs)
  have hcl : ParseQuery.clauses m [p ++ ":" ++ s] = [(n, s)] := by
    simp only [ParseQuery.clauses, List.filterMap_cons, clause_known m p s v hp hk,
      List.filterMap_nil, hn]
  have h1 : ParseQuery (p ++ ":" ++ s) m =
      (Query.mk false [.index (Index.mk n [.value ⟨.str s⟩])], true) := by
    rw [ParseQuery_eq, hsplit, hcl]
    rfl
  refine ⟨h1, ?_, ?_⟩
  · rw [h1]
    rfl
  · rw [ParseQuery_String, hsplit, hcl]
    simp only [List.map_cons, List.map_nil, strings.Join, clauseText_eq]

/-- Witness of C3: the token `status:open` with the alias map of C2, where the key
`status` has the empty value, so that the field name stays `status`. -/
theorem C3_known_field_token_witness :
    (':' ∉ "status".data ∧ ' ' ∉ "status".data ∧ ' ' ∉ "open".data ∧
      ("status", "") ∈ aliasStatusPriority.entries ∧
      "status" = if "" ≠ "" then "" else "status") ∧
    (ParseQuery ("status" ++ ":" ++ "open") aliasStatusPriority =
      (Query.mk false [.index (Index.mk "status" [.value ⟨.str "open"⟩])], true) ∧
    (ParseQuery ("status" ++ ":" ++ "open") aliasStatusPriority).1 =
      (Query.new.Index "status").1.atIndex (Query.new.Index "status").2
        (fun i => i.Is (.str "open")) ∧
    (ParseQuery ("status" ++ ":" ++ "open") aliasStatusPriority).1.String =
      .ok ((if "status" = "" then "default" else "status") ++ ":(\"" ++ Escape "open" ++
        "\")")) :=
  ⟨⟨by decide, by decide, by decide, by decide, by decide⟩,
    C3_known_field_token "status" "open" "" "status" aliasStatusPriority (by decide) (by decide)
      (by decide) (by decide) (by decide)⟩

/-- C4: for a non-empty list of non-empty tokens without space and without colon, the
parser applied to the tokens joined by single spaces returns `matched = true`; the query
has one clause `Index("").Is(t)` per token with the keyword `AND` before the second and
every later clause and nothing before the first, and it renders as the texts
`default:("<Escape(t)>")` joined by ` AND `, whatever the alias map. -/
theorem C4_plain_tokens_joined_by_and (ts : List String) (m : GoMap) (hne : ts ≠ [])
    (h : ∀ t ∈ ts, t ≠ "" ∧ ' ' ∉ t.data ∧ ':' ∉ t.data) :
    (ParseQuery (strings.Join ts " ") m).2 = true ∧
    (ParseQuery (strings.Join ts " ") m).1 =
      Query.mk false (ParseQuery.joined
        (ts.map (fun t => Index.mk "" [.value ⟨.str t⟩]))) ∧
    (ParseQuery (strings.Join ts " ") m).1.String =
      .ok (strings.Join (ts.map (fun t => "default:(\"" ++ Escape t ++ "\")")) " AND ") := by
  have hsplit := Split_Join ts hne (fun t ht => (h t ht).2.1)
  have hcl := clauses_plain m ts h
  refine ⟨?_, ?_, ?_⟩
  · rw [ParseQuery_eq, hsplit, hcl]
    have : 0 < ts.length := List.length_pos.mpr hne
    simp [this]
  · rw [ParseQuery_eq, hsplit, hcl, List.map_map]
    rfl
  · rw [ParseQuery_String, hsplit, hcl, List.map_map]
    congr 2
    apply List.map_congr_left
    intro t _
    simp only [Function.comp, clauseText_eq]
    rfl

/-- Witness of C4: the input `freeform text` with the empty alias map. -/
theorem C4_plain_tokens_joined_by_and_witness :
    (["freeform", "text"] ≠ [] ∧
      ∀ t ∈ ["freeform", "text"], t ≠ "" ∧ ' ' ∉ t.data ∧ ':' ∉ t.data) ∧
    (ParseQuery "freeform text" aliasEmpty).2 = true ∧
    (ParseQuery "freeform text" aliasEmpty).1 =
      Query.mk false
        [.index (.mk "" [.value ⟨.str "freeform"⟩]), .keyword Keyword.And,
          .index (.mk "" [.value ⟨.str "text"⟩])] ∧
    (ParseQuery "freeform text" aliasEmpty).1.String =
      .ok "default:(\"freeform\") AND default:(\"text\")" :=
  ⟨⟨by decide, by decide⟩,
    C4_plain_tokens_joined_by_and ["freeform", "text"] aliasEmpty (by decide) (by decide)⟩

/-- C5: on an input made of ASCII spaces only (the empty input included) the parser
returns `matched = false` and an initialized root query that is not a group, has no
component and renders as the empty text, whatever the alias map. -/
theorem C5_blank_input (s : String) (m : GoMap) (h : ∀ c ∈ s.data, c = ' ') :
    ParseQuery s m = (Query.mk false [], false) ∧
    (ParseQuery s m).2 = false ∧
    (ParseQuery s m).1.isGroup = false ∧
    (ParseQuery s m).1.c = [] ∧
    (ParseQuery s m).1.String = .ok "" := by
  have h1 : ParseQuery s m = (Query.mk false [], false) := by
    rw [ParseQuery_eq, clauses_Split_spaces m s h]
    rfl
  refine ⟨h1, ?_, ?_, ?_, ?_⟩ <;> rw [h1] <;> rfl

/-- Witness of C5: the input of three spaces and the alias map `known -> k`. -/
theorem C5_blank_input_witness :
    (∀ c ∈ "   ".data, c = ' ') ∧
    ParseQuery "   " aliasKnown = (Query.mk false [], false) ∧
    (ParseQuery "   " aliasKnown).2 = false ∧
    (ParseQuery "   " aliasKnown).1.isGroup = false ∧
    (ParseQuery "   " aliasKnown).1.c = [] ∧
    (ParseQuery "   " aliasKnown).1.String = .ok "" :=
  ⟨by decide, C5_blank_input "   " aliasKnown (by decide)⟩

theorem length_pos_iff_ne_empty (t : String) : t.length > 0 ↔ t ≠ "" := by
  show t.data.length > 0 ↔ t ≠ ""
  rw [gt_iff_lt, List.length_pos]
  constructor
  · intro h e
    exact h (congrArg String.data e)
  · intro h e
    exact h (String.ext e)

theorem find?_isSome_iff_mem_keys (m : GoMap) (p : String) :
    (∃ e, m.entries.find? (fun e => e.1 = p) = some e) ↔ p ∈ m.keys := by
  rw [← Option.isSome_iff_exists, List.find?_isSome]
  simp only [decide_eq_true_eq, GoMap.keys, List.mem_map]

theorem clause_isSome_iff (m : GoMap) (t : String) :
    (∃ x, ParseQuery.clause m t = some x) ↔
      t ≠ "" ∧ (':' ∉ t.data ∨ ParseQuery.fieldOf t ∈ m.keys) := by
  rw [← length_pos_iff_ne_empty, ← find?_isSome_iff_mem_keys]
  unfold ParseQuery.clause
  by_cases hl : t.length > 0
  · by_cases hc : ':' ∈ t.data
    · simp only [hl, hc, if_true, not_true_eq_false, false_or, true_and,
        Option.map_eq_some']
      constructor
      · rintro ⟨x, e, he, _⟩
        exact ⟨e, he⟩
      · rintro ⟨e, he⟩
        exact ⟨_, e, he, rfl⟩
    · simp only [hl, hc, if_true, if_false, not_false_eq_true, true_or, and_true]
      exact ⟨fun _ => trivial, fun _ => ⟨_, rfl⟩⟩
  · simp only [hl, if_false, false_and, iff_false]
    rintro ⟨x, hx⟩
    cases hx

theorem joined_eq_nil_iff (xs : List Index) : ParseQuery.joined xs = [] ↔ xs = [] := by
  cases xs with
  | nil => exact ⟨fun _ => rfl, fun _ => rfl⟩
  | cons x rest =>
    cases rest with
    | nil => simp [ParseQuery.joined]
    | cons y ys => simp [ParseQuery.joined]

theorem clauseText_ne_empty (x : String × String) : ParseQuery.clauseText x ≠ "" := by
  rw [← length_pos_iff_ne_empty]
  simp only [ParseQuery.clauseText, String.length_append]
  have : (":(" : String).length = 2 := by decide
  omega

theorem Join_cons_ne_empty (x : String) (rest : List String) (sep : String)
    (hx : x ≠ "") : strings.Join (x :: rest) sep ≠ "" := by
  rw [← length_pos_iff_ne_empty] at hx ⊢
  cases rest with
  | nil => exact hx
  | cons y ys =>
    show (x ++ sep ++ strings.Join (y :: ys) sep).length > 0
    simp only [String.length_append]
    omega

/-- C6: the boolean returned by `ParseQuery` is `false` exactly when the returned query
has no component, that is exactly when it renders as the empty text; and it is `true`
exactly when some non-empty token of the input has no colon or has a key of the alias map
as its text before the first colon. -/
theorem C6_matched_iff_clause_accepted (s : String) (m : GoMap) :
    ((ParseQuery s m).2 = false ↔ (ParseQuery s m).1.c = []) ∧
    ((ParseQuery s m).1.c = [] ↔ (ParseQuery s m).1.String = .ok "") ∧
    ((ParseQuery s m).2 = true ↔
      ∃ t ∈ strings.Split s ' ',
        t ≠ "" ∧ (':' ∉ t.data ∨ ParseQuery.fieldOf t ∈ m.keys)) := by
  have hq := ParseQuery_eq s m
  have hs := ParseQuery_String s m
  generalize hcl : ParseQuery.clauses m (strings.Split s ' ') = cl at hq hs
  refine ⟨?_, ?_, ?_⟩
  · rw [hq]
    simp only [Query.c, joined_eq_nil_iff, List.map_eq_nil_iff, decide_eq_false_iff_not,
      gt_iff_lt, List.length_pos, not_not]
  · rw [hs, hq]
    simp only [Query.c, joined_eq_nil_iff, List.map_eq_nil_iff]
    constructor
    · intro h
      rw [h]
      rfl
    · intro h
      cases cl with
      | nil => rfl
      | cons x rest =>
        exfalso
        injection h with h
        exact Join_cons_ne_empty _ _ _ (clauseText_ne_empty x) h
  · rw [hq]
    simp only [decide_eq_true_eq, gt_iff_lt, List.length_pos_iff_exists_mem]
    rw [← hcl]
    simp only [ParseQuery.clauses, List.mem_filterMap]
    constructor
    · rintro ⟨x, t, ht, hx⟩
      exact ⟨t, ht, (clause_isSome_iff m t).mp ⟨x, hx⟩⟩
    · rintro ⟨t, ht, h⟩
      obtain ⟨x, hx⟩ := (clause_isSome_iff m t).mpr h
      exact ⟨x, t, ht, hx⟩

/-! ## Lemmas on the escaper -/

theorem reserved_iff (c : Char) : Escape.reserved c = true ↔ c ∈ Escape.reservedChars := by
  unfold Escape.reserved
  split <;> simp_all [Escape.reservedChars]

theorem foldl_step_eq_flatMap (l b : List Char) :
    l.foldl Escape.step b =
      b ++ l.flatMap (fun c => if c ∈ Escape.reservedChars then ['\\', c] else [c]) := by
  induction l generalizing b with
  | nil => simp
  | cons x xs ih =>
    rw [List.foldl_cons, ih, List.flatMap_cons]
    by_cases hx : x ∈ Escape.reservedChars
    · have := (reserved_iff x).mpr hx
      simp [Escape.step, this, hx]
    · have : Escape.reserved x = false := by
        rw [← Bool.not_eq_true, reserved_iff]
        exact hx
      simp [Escape.step, this, hx]

theorem Escape_eq_spec (s : String) : Escape s = Escape.spec s := by
  simp only [Escape, Escape.spec, foldl_step_eq_flatMap, List.nil_append]

theorem length_flatMap_escape (l : List Char) :
    (l.flatMap (fun c => if c ∈ Escape.reservedChars then ['\\', c] else [c])).length =
      l.length + l.countP (fun c => c ∈ Escape.reservedChars) := by
  induction l with
  | nil => rfl
  | cons x xs ih =>
    rw [List.flatMap_cons, List.length_append, ih, List.countP_cons, List.length_cons]
    by_cases hx : x ∈ Escape.reservedChars
    · simp [hx]
      omega
    · simp [hx]
      omega

theorem flatMap_escape_of_not_reserved (l : List Char)
    (h : ∀ c ∈ l, c ∉ Escape.reservedChars) :
    l.flatMap (fun c => if c ∈ Escape.reservedChars then ['\\', c] else [c]) = l := by
  induction l with
  | nil => rfl
  | cons x xs ih =>
    rw [List.flatMap_cons, ih (fun c hc => h c (List.mem_cons_of_mem _ hc)),
      if_neg (h x (List.mem_cons_self _ _))]
    rfl

/-- C7: `Escape(s)` is the concatenation, over the code points `c` of `s` in order, of a
backslash followed by `c` when `c` is one of the 19 reserved characters and of `c` alone
otherwise; its length is the length of `s` plus the number of reserved characters in `s`;
and `Escape("a/b")` is `a\/b`. -/
theorem C7_escape_inserts_one_backslash (s : String) :
    Escape s = Escape.spec s ∧
    (Escape s).data =
      s.data.flatMap (fun c => if c ∈ Escape.reservedChars then ['\\', c] else [c]) ∧
    (Escape s).length = s.length + s.data.countP (fun c => c ∈ Escape.reservedChars) ∧
    Escape.reservedChars.length = 19 ∧ Escape.reservedChars.Nodup ∧
    Escape "a/b" = "a\\/b" := by
  refine ⟨Escape_eq_spec s, ?_, ?_, by decide, by decide, by decide⟩
  · rw [Escape_eq_spec]
    rfl
  · rw [Escape_eq_spec]
    exact length_flatMap_escape s.data

theorem Escape_of_not_reserved (s : String)
    (h : ∀ c ∈ s.data, c ∉ Escape.reservedChars) : Escape s = s := by
  rw [Escape_eq_spec]
  apply String.ext
  exact flatMap_escape_of_not_reserved s.data h

/-- C9: a value wrapping a text `t` renders as a double quote, `Escape(t)` and a double
quote; a value wrapping a keyword `k` renders as the text of `k`, without quotes and
without escaping: `Is(NInfinity)` gives `-Infinity` and `Is("-Infinity")` gives
`"\-Infinity"`; the operators appended by `And()` and `Or()` render `AND` and `OR`. -/
theorem C9_text_quoted_keyword_verbatim :
    (∀ t : String, (queryValue.mk (.str t)).String = .ok ("\"" ++ Escape t ++ "\"")) ∧
    (∀ k : Keyword, (queryValue.mk (.keyword k)).String = .ok k.text) ∧
    (∀ i : Index, (i.Is (.keyword Keyword.NInfinity)).c =
      i.c ++ [.value ⟨.keyword Keyword.NInfinity⟩]) ∧
    (queryComponent.value ⟨.keyword Keyword.NInfinity⟩).String = .ok "-Infinity" ∧
    (queryComponent.value ⟨.str "-Infinity"⟩).String = .ok "\"\\-Infinity\"" ∧
    ((Index.mk "f" []).Is (.keyword Keyword.NInfinity)).String = .ok "f:(-Infinity)" ∧
    ((Index.mk "f" []).Is (.str "-Infinity")).String = .ok "f:(\"\\-Infinity\")" ∧
    (∀ i : Index, i.And.c = i.c ++ [.keyword Keyword.And] ∧
      i.Or.c = i.c ++ [.keyword Keyword.Or]) ∧
    (∀ q : Query, q.And.c = q.c ++ [.keyword Keyword.And] ∧
      q.Or.c = q.c ++ [.keyword Keyword.Or]) ∧
    (queryComponent.keyword Keyword.And).String = .ok "AND" ∧
    (queryComponent.keyword Keyword.Or).String = .ok "OR" := by
  refine ⟨fun _ => rfl, fun _ => rfl, fun _ => rfl, rfl, rfl, rfl, rfl,
    fun _ => ⟨rfl, rfl⟩, fun _ => ⟨rfl, rfl⟩, rfl, rfl⟩

/-! ## Lemmas on the decimal conversion -/

theorem digitChar_facts :
    ∀ d, d < 10 → (strconv.digitChar d).isDigit = true ∧
      (strconv.digitChar d).toNat - 48 = d ∧ (strconv.digitChar d = '0' → d = 0) := by
  decide

theorem formatBits_acc (fuel u : Nat) (acc : List Char) :
    strconv.formatBits fuel u acc = strconv.formatBits fuel u [] ++ acc := by
  induction fuel generalizing u acc with
  | zero => rfl
  | succ f ih =>
    simp only [strconv.formatBits]
    by_cases h : u < 10
    · simp [h]
    · simp only [h, if_false]
      rw [ih (u / 10) (strconv.digitChar (u % 10) :: acc),
        ih (u / 10) [strconv.digitChar (u % 10)]]
      simp

theorem formatBits_small (fuel u : Nat) (h : u < 10) :
    strconv.formatBits fuel u [] = [strconv.digitChar u] := by
  cases fuel with
  | zero => simp [strconv.formatBits, Nat.mod_eq_of_lt h]
  | succ f => simp [strconv.formatBits, h]

theorem formatBits_large (f u : Nat) (h : ¬ u < 10) :
    strconv.formatBits (f + 1) u [] =
      strconv.formatBits f (u / 10) [] ++ [strconv.digitChar (u % 10)] := by
  simp only [strconv.formatBits, h, if_false]
  exact formatBits_acc _ _ _

theorem readDigits_append (xs : List Char) (c : Char) :
    strconv.readDigits (xs ++ [c]) = 10 * strconv.readDigits xs + (c.toNat - 48) := by
  simp [strconv.readDigits, List.foldl_append]

/-- The digits written for `u`: at least one, decimal digits only, a leading zero only for
the number zero, and they read back as `u`. -/
theorem formatBits_digits (fuel u : Nat) (h : u ≤ fuel) :
    strconv.formatBits fuel u [] ≠ [] ∧
    (∀ c ∈ strconv.formatBits fuel u [], c.isDigit = true) ∧
    ((strconv.formatBits fuel u []).head? = some '0' →
      u = 0 ∧ strconv.formatBits fuel u [] = ['0']) ∧
    strconv.readDigits (strconv.formatBits fuel u []) = u := by
  induction fuel generalizing u with
  | zero =>
    have hu : u = 0 := by omega
    subst hu
    decide
  | succ f ih =>
    by_cases hlt : u < 10
    · rw [formatBits_small _ u hlt]
      obtain ⟨h1, h2, h3⟩ := digitChar_facts u hlt
      refine ⟨List.cons_ne_nil _ _, ?_, ?_, ?_⟩
      · intro c hc
        rw [List.mem_singleton.mp hc]
        exact h1
      · intro hh
        simp only [List.head?_cons, Option.some.injEq] at hh
        have := h3 hh
        subst this
        exact ⟨rfl, rfl⟩
      · simp [strconv.readDigits, h2]
    · rw [formatBits_large f u hlt]
      have hdiv : u / 10 ≤ f := by omega
      obtain ⟨i1, i2, i3, i4⟩ := ih (u / 10) hdiv
      obtain ⟨h1, h2, _⟩ := digitChar_facts (u % 10) (Nat.mod_lt _ (by decide))
      refine ⟨?_, ?_, ?_, ?_⟩
      · simp
      · intro c hc
        rcases List.mem_append.mp hc with hc | hc
        · exact i2 c hc
        · rw [List.mem_singleton.mp hc]
          exact h1
      · intro hh
        exfalso
        cases hfb : strconv.formatBits f (u / 10) [] with
        | nil => exact i1 hfb
        | cons x xs =>
          rw [hfb] at hh i3
          simp only [List.cons_append, List.head?_cons] at hh i3
          have := (i3 hh).1
          omega
      · rw [readDigits_append, i4, h2]
        omega

theorem FormatUint_digits (u : Nat) :
    (strconv.FormatUint u).data ≠ [] ∧
    (∀ c ∈ (strconv.FormatUint u).data, c.isDigit = true) ∧
    ((strconv.FormatUint u).data.head? = some '0' →
      u = 0 ∧ (strconv.FormatUint u).data = ['0']) ∧
    strconv.readDigits (strconv.FormatUint u).data = u :=
  formatBits_digits u u (Nat.le_refl u)

theorem readDecimal_digits (ds : List Char) (hne : ds ≠ [])
    (hd : ∀ c ∈ ds, c.isDigit = true) :
    strconv.readDecimal ⟨ds⟩ = some (strconv.readDigits ds : Int) := by
  have hall : ds.all Char.isDigit = true := List.all_eq_true.mpr hd
  unfold strconv.readDecimal
  split
  · rename_i rest heq
    simp only at heq
    have := hd '-' (heq ▸ List.mem_cons_self _ _)
    exact absurd this (by decide)
  · simp [hne, hall]

theorem readDecimal_minus_digits (ds : List Char) (hne : ds ≠ [])
    (hd : ∀ c ∈ ds, c.isDigit = true) :
    strconv.readDecimal ⟨'-' :: ds⟩ = some (-(strconv.readDigits ds : Int)) := by
  have hall : ds.all Char.isDigit = true := List.all_eq_true.mpr hd
  simp [strconv.readDecimal, hne, hall]

/-- C10: a value wrapping an integer renders as its canonical base-10 text: a minus sign
exactly when the integer is negative, then decimal digits only, at least one, with a
leading zero only for the number zero; the text reads back as the integer. This holds for
the signed and for the unsigned types, and `Index("type").Is(5)` renders `type:(5)`. -/
theorem C10_integer_values_decimal :
    (∀ n : Int, ∃ ds : List Char,
      (queryValue.mk (.int n)).String = .ok ⟨(if n < 0 then ['-'] else []) ++ ds⟩ ∧
      ds ≠ [] ∧ (∀ c ∈ ds, c.isDigit = true) ∧
      (ds.head? = some '0' → n = 0 ∧ ds = ['0']) ∧
      strconv.readDecimal ⟨(if n < 0 then ['-'] else []) ++ ds⟩ = some n) ∧
    (∀ u : Nat, ∃ ds : List Char,
      (queryValue.mk (.uint u)).String = .ok ⟨ds⟩ ∧
      ds ≠ [] ∧ (∀ c ∈ ds, c.isDigit = true) ∧
      (ds.head? = some '0' → u = 0 ∧ ds = ['0']) ∧
      strconv.readDecimal ⟨ds⟩ = some (u : Int)) ∧
    ((Query.new.Index "type").1.atIndex (Query.new.Index "type").2
      (fun i => i.Is (.int 5))).String = .ok "type:(5)" ∧
    (queryValue.mk (.int (-128))).String = .ok "-128" ∧
    (queryValue.mk (.uint 18446744073709551615)).String = .ok "18446744073709551615" := by
  refine ⟨?_, ?_, rfl, rfl, rfl⟩
  · intro n
    obtain ⟨h1, h2, h3, h4⟩ := formatBits_digits n.natAbs n.natAbs (Nat.le_refl _)
    refine ⟨strconv.formatBits n.natAbs n.natAbs [], ?_, h1, h2, ?_, ?_⟩
    · by_cases hn : n < 0
      · simp [queryValue.String, strconv.FormatInt, hn]
      · simp [queryValue.String, strconv.FormatInt, strconv.FormatUint, hn]
    · intro hh
      obtain ⟨e1, e2⟩ := h3 hh
      exact ⟨Int.natAbs_eq_zero.mp e1, e2⟩
    · by_cases hn : n < 0
      · simp only [hn, if_true, List.singleton_append]
        rw [readDecimal_minus_digits _ h1 h2, h4]
        congr 1
        omega
      · simp only [hn, if_false, List.nil_append]
        rw [readDecimal_digits _ h1 h2, h4]
        congr 1
        omega
  · intro u
    obtain ⟨h1, h2, h3, h4⟩ := FormatUint_digits u
    refine ⟨(strconv.FormatUint u).data, rfl, h1, h2, h3, ?_⟩
    rw [readDecimal_digits _ h1 h2, h4]

/-! ## Lemmas on faults -/

theorem queryValue_String_cases (v : queryValue) :
    (v.t = .unsupported ∧ v.String = .error panicMessage) ∨
    (v.t ≠ .unsupported ∧ ∃ s, v.String = .ok s) := by
  obtain ⟨t⟩ := v
  cases t with
  | keyword k => exact Or.inr ⟨by simp, _, rfl⟩
  | str s => exact Or.inr ⟨by simp, _, rfl⟩
  | int n => exact Or.inr ⟨by simp, _, rfl⟩
  | uint n => exact Or.inr ⟨by simp, _, rfl⟩
  | unsupported => exact Or.inl ⟨rfl, rfl⟩

mutual
theorem queryComponent_outcome : ∀ c : queryComponent, Outcome c.String c.leaves
  | .query q => by
    rw [queryComponent.String, queryComponent.leaves]
    exact Query_outcome q
  | .index i => by
    rw [queryComponent.String, queryComponent.leaves]
    exact Index_outcome i
  | .keyword k => by
    rw [queryComponent.String, queryComponent.leaves]
    exact Or.inr ⟨fun v hv => absurd hv (List.not_mem_nil _), _, rfl⟩
  | .value v => by
    rw [queryComponent.String, queryComponent.leaves]
    rcases queryValue_String_cases v with ⟨h1, h2⟩ | ⟨h1, h2⟩
    · exact Or.inl ⟨⟨v, List.mem_singleton.mpr rfl, h1⟩, h2⟩
    · refine Or.inr ⟨?_, h2⟩
      intro w hw
      rw [List.mem_singleton.mp hw]
      exact h1
  | .range r => by
    rw [queryComponent.String, queryComponent.leaves]
    exact queryRange_outcome r
theorem Query_outcome : ∀ q : Query, Outcome q.String q.leaves
  | .mk g c => by
    rw [Query.String, Query.leaves]
    rcases queryComponents_outcome c with ⟨h1, h2⟩ | ⟨h1, s, h2⟩
    · exact Or.inl ⟨h1, by rw [h2]; rfl⟩
    · refine Or.inr ⟨h1, ?_⟩
      rw [h2]
      cases g
      · exact ⟨_, rfl⟩
      · exact ⟨_, rfl⟩
theorem Index_outcome : ∀ i : Index, Outcome i.String i.leaves
  | .mk n c => by
    rw [Index.String, Index.leaves]
    rcases queryComponents_outcome c with ⟨h1, h2⟩ | ⟨h1, s, h2⟩
    · exact Or.inl ⟨h1, by rw [h2]; rfl⟩
    · refine Or.inr ⟨h1, ?_⟩
      rw [h2]
      exact ⟨_, rfl⟩
theorem queryRange_outcome : ∀ r : queryRange, Outcome r.String r.leaves
  | .mk v0 v1 => by
    rw [queryRange.String, queryRange.leaves]
    rcases queryComponent_outcome v0 with ⟨⟨w, hw, hu⟩, h2⟩ | ⟨h1, s, h2⟩
    · exact Or.inl ⟨⟨w, List.mem_append_left _ hw, hu⟩, by rw [h2]; rfl⟩
    · rcases queryComponent_outcome v1 with ⟨⟨w, hw, hu⟩, h4⟩ | ⟨h3, s2, h4⟩
      · exact Or.inl ⟨⟨w, List.mem_append_right _ hw, hu⟩, by rw [h2, h4]; rfl⟩
      · refine Or.inr ⟨?_, ?_⟩
        · intro w hw
          rcases List.mem_append.mp hw with hw | hw
          · exact h1 w hw
          · exact h3 w hw
        · rw [h2, h4]
          exact ⟨_, rfl⟩
theorem queryComponents_outcome :
    ∀ c : List queryComponent, OutcomeList (queryComponents.strs c) (queryComponents.leaves c)
  | [] => by
    rw [queryComponents.strs, queryComponents.leaves]
    exact Or.inr ⟨fun v hv => absurd hv (List.not_mem_nil _), _, rfl⟩
  | x :: rest => by
    rw [queryComponents.strs, queryComponents.leaves]
    rcases queryComponent_outcome x with ⟨⟨w, hw, hu⟩, h2⟩ | ⟨h1, s, h2⟩
    · exact Or.inl ⟨⟨w, List.mem_append_left _ hw, hu⟩, by rw [h2]; rfl⟩
    · rcases queryComponents_outcome rest with ⟨⟨w, hw, hu⟩, h4⟩ | ⟨h3, s2, h4⟩
      · exact Or.inl ⟨⟨w, List.mem_append_right _ hw, hu⟩, by rw [h2, h4]; rfl⟩
      · refine Or.inr ⟨?_, ?_⟩
        · intro w hw
          rcases List.mem_append.mp hw with hw | hw
          · exact h1 w hw
          · exact h3 w hw
        · rw [h2, h4]
          exact ⟨_, rfl⟩
end

theorem Outcome_fault_iff (r : Except String String) (ls : List queryValue)
    (h : Outcome r ls) :
    ((∃ e, r = .error e) ↔ ∃ v ∈ ls, v.t = .unsupported) ∧
    ((∃ s, r = .ok s) ↔ ∀ v ∈ ls, v.t ≠ .unsupported) ∧
    (∀ e, r = .error e → e = panicMessage) := by
  rcases h with ⟨h1, h2⟩ | ⟨h1, s, h2⟩
  · subst h2
    refine ⟨⟨fun _ => h1, fun _ => ⟨_, rfl⟩⟩, ⟨?_, ?_⟩, ?_⟩
    · rintro ⟨s, hs⟩
      cases hs
    · intro hall
      obtain ⟨v, hv, hu⟩ := h1
      exact absurd hu (hall v hv)
    · intro e he
      injection he with he
      exact he.symm
  · subst h2
    refine ⟨⟨?_, ?_⟩, ⟨fun _ => h1, fun _ => ⟨_, rfl⟩⟩, ?_⟩
    · rintro ⟨e, he⟩
      cases he
    · rintro ⟨v, hv, hu⟩
      exact absurd hu (h1 v hv)
    · intro e he
      cases he

/-- C11: `Is(v)` and `Range(a, b)` append their leaf for every scalar, the unsupported ones
included; `String()` on a component, a query (root or group) or an index faults exactly
when some value leaf reachable in it wraps an unsupported scalar, the fault is always the
panic of `queryValue.String`, and it returns a text exactly when no such leaf is
reachable. -/
theorem C11_fault_iff_unsupported_leaf :
    (∀ (i : Index) (v : GoValue), (i.Is v).c = i.c ++ [.value ⟨v⟩]) ∧
    (∀ (i : Index) (a b : GoValue),
      (i.Range a b).c = i.c ++ [.range (.mk (.value ⟨a⟩) (.value ⟨b⟩))]) ∧
    (∀ v : queryValue, (∃ e, v.String = .error e) ↔ v.t = .unsupported) ∧
    (∀ c : queryComponent,
      ((∃ e, c.String = .error e) ↔ ∃ v ∈ c.leaves, v.t = .unsupported) ∧
      ((∃ s, c.String = .ok s) ↔ ∀ v ∈ c.leaves, v.t ≠ .unsupported) ∧
      (∀ e, c.String = .error e → e = panicMessage)) ∧
    (∀ q : Query,
      ((∃ e, q.String = .error e) ↔ ∃ v ∈ q.leaves, v.t = .unsupported) ∧
      ((∃ s, q.String = .ok s) ↔ ∀ v ∈ q.leaves, v.t ≠ .unsupported) ∧
      (∀ e, q.String = .error e → e = panicMessage)) ∧
    (∀ i : Index,
      ((∃ e, i.String = .error e) ↔ ∃ v ∈ i.leaves, v.t = .unsupported) ∧
      ((∃ s, i.String = .ok s) ↔ ∀ v ∈ i.leaves, v.t ≠ .unsupported) ∧
      (∀ e, i.String = .error e → e = panicMessage)) ∧
    ((Index.mk "f" []).Is .unsupported).String = .error "invalid query value type" ∧
    (Query.mk false [.query (.mk true [.index ((Index.mk "f" []).Range (.int 1)
      .unsupported)])]).String = .error "invalid query value type" ∧
    (Query.mk false [.query (.mk true [.index ((Index.mk "f" []).Range (.int 1)
      (.keyword Keyword.Infinity))])]).String = .ok "(f:([1 TO Infinity]))" := by
  refine ⟨fun _ _ => rfl, fun _ _ _ => rfl, ?_,
    fun c => Outcome_fault_iff _ _ (queryComponent_outcome c),
    fun q => Outcome_fault_iff _ _ (Query_outcome q),
    fun i => Outcome_fault_iff _ _ (Index_outcome i), rfl, rfl, rfl⟩
  intro v
  rcases queryValue_String_cases v with ⟨h1, h2⟩ | ⟨h1, s, h2⟩
  · exact ⟨fun _ => h1, fun _ => ⟨_, h2⟩⟩
  · constructor
    · rintro ⟨e, he⟩
      rw [h2] at he
      cases he
    · intro hu
      exact absurd hu h1

/-! ## Lemmas on lists of components -/

theorem strs_of_forall₂ (cs : List queryComponent) (ss : List String)
    (h : List.Forall₂ (fun c s => c.String = .ok s) cs ss) :
    queryComponents.strs cs = .ok ss := by
  induction h with
  | nil => rfl
  | cons hx _ ih =>
    rw [queryComponents.strs, hx, ih]
    rfl

theorem strs_append_singleton (cs : List queryComponent) (c : queryComponent)
    (ss : List String) (t : String) (h1 : queryComponents.strs cs = .ok ss)
    (h2 : c.String = .ok t) :
    queryComponents.strs (cs ++ [c]) = .ok (ss ++ [t]) := by
  induction cs generalizing ss with
  | nil =>
    rw [queryComponents.strs] at h1
    injection h1 with h1
    subst h1
    rw [List.nil_append, queryComponents.strs, h2, queryComponents.strs]
    rfl
  | cons x rest ih =>
    rw [queryComponents.strs] at h1
    cases hx : x.String with
    | error e =>
      rw [hx] at h1
      cases h1
    | ok sx =>
      cases hr : queryComponents.strs rest with
      | error e =>
        rw [hx, hr] at h1
        cases h1
      | ok sr =>
        rw [hx, hr] at h1
        injection h1 with h1
        subst h1
        rw [List.cons_append, queryComponents.strs, hx, ih sr hr]
        rfl

theorem Join_append_singleton (ss : List String) (t sep : String) :
    strings.Join (ss ++ [t]) sep =
      if ss.isEmpty then t else strings.Join ss sep ++ sep ++ t := by
  induction ss with
  | nil => rfl
  | cons x rest ih =>
    cases rest with
    | nil => rfl
    | cons y ys =>
      show x ++ sep ++ strings.Join ((y :: ys) ++ [t]) sep = _
      rw [ih]
      simp only [List.isEmpty_cons, Bool.false_eq_true, if_false]
      show _ = x ++ sep ++ strings.Join (y :: ys) sep ++ sep ++ t
      simp only [String.append_assoc]

theorem queryComponents_String_of_strs (cs : List queryComponent) (ss : List String)
    (h : queryComponents.strs cs = .ok ss) :
    queryComponents.String cs = .ok (strings.Join ss " ") := by
  rw [queryComponents.String, h]
  rfl

theorem strs_of_queryComponents_String (cs : List queryComponent) (S : String)
    (h : queryComponents.String cs = .ok S) :
    ∃ ss, queryComponents.strs cs = .ok ss ∧ S = strings.Join ss " " := by
  rw [queryComponents.String] at h
  cases hs : queryComponents.strs cs with
  | error e =>
    rw [hs] at h
    cases h
  | ok ss =>
    rw [hs] at h
    injection h with h
    exact ⟨ss, rfl, h.symm⟩

theorem strs_isEmpty (cs : List queryComponent) (ss : List String)
    (h : queryComponents.strs cs = .ok ss) : ss.isEmpty = cs.isEmpty := by
  cases cs with
  | nil =>
    rw [queryComponents.strs] at h
    injection h with h
    subst h
    rfl
  | cons x rest =>
    rw [queryComponents.strs] at h
    cases hx : x.String with
    | error e =>
      rw [hx] at h
      cases h
    | ok sx =>
      cases hr : queryComponents.strs rest with
      | error e =>
        rw [hx, hr] at h
        cases h
      | ok sr =>
        rw [hx, hr] at h
        injection h with h
        subst h
        rfl

/-- C12: the leaf appended by `Range(a, b)` for supported scalars renders as `[`, the
text of the value `a`, ` TO `, the text of the value `b` and `]`, each bound rendered by the
rules of values: `Range(1, 10)` gives `[1 TO 10]` and `Range(NInfinity, Infinity)` gives
`[-Infinity TO Infinity]`, the sentinels unquoted. -/
theorem C12_range_renders_bounds (i : Index) (a b : GoValue) (sa sb : String)
    (ha : (queryValue.mk a).String = .ok sa) (hb : (queryValue.mk b).String = .ok sb) :
    (i.Range a b).c = i.c ++ [.range (.mk (.value ⟨a⟩) (.value ⟨b⟩))] ∧
    (queryComponent.range (.mk (.value ⟨a⟩) (.value ⟨b⟩))).String =
      .ok ("[" ++ sa ++ " TO " ++ sb ++ "]") ∧
    (queryComponent.range (.mk (.value ⟨.int 1⟩) (.value ⟨.int 10⟩))).String =
      .ok "[1 TO 10]" ∧
    (queryComponent.range (.mk (.value ⟨.keyword Keyword.NInfinity⟩)
      (.value ⟨.keyword Keyword.Infinity⟩))).String = .ok "[-Infinity TO Infinity]" ∧
    ((Index.mk "n" []).Range (.int 1) (.int 10)).String = .ok "n:([1 TO 10])" ∧
    ((Index.mk "n" []).Range (.keyword Keyword.NInfinity)
      (.keyword Keyword.Infinity)).String = .ok "n:([-Infinity TO Infinity])" := by
  refine ⟨rfl, ?_, rfl, rfl, rfl, rfl⟩
  rw [queryComponent.String, queryRange.String, queryComponent.String,
    queryComponent.String, ha, hb]
  rfl

/-- Witness of C12: the range from the text `a` to the unsigned integer `7`. -/
theorem C12_range_renders_bounds_witness :
    ((queryValue.mk (.str "a")).String = .ok "\"a\"" ∧
      (queryValue.mk (.uint 7)).String = .ok "7") ∧
    (queryComponent.range (.mk (.value ⟨.str "a"⟩) (.value ⟨.uint 7⟩))).String =
      .ok "[\"a\" TO 7]" :=
  ⟨⟨rfl, rfl⟩,
    (C12_range_renders_bounds (Index.mk "n" []) (.str "a") (.uint 7) "\"a\"" "7" rfl rfl).2.1⟩

/-- C13: an index with name `n` and components `cs`, whose texts are `ss`, renders as `m`,
then `:(`, the texts joined by single spaces and `)`, where `m` is `n` when `n` is not
empty and `default` otherwise; `Index("").Is("x")` renders `default:("x")` and an index
without component renders `n:()`. -/
theorem C13_index_renders_scope (n : String) (cs : List queryComponent) (ss : List String)
    (h : List.Forall₂ (fun c s => c.String = .ok s) cs ss) :
    (Index.mk n cs).String =
      .ok ((if n = "" then "default" else n) ++ ":(" ++ strings.Join ss " " ++ ")") ∧
    queryComponents.String cs = .ok (strings.Join ss " ") ∧
    ((Index.mk "" []).Is (.str "x")).String = .ok "default:(\"x\")" ∧
    (Index.mk n []).String = .ok ((if n = "" then "default" else n) ++ ":()") ∧
    (Index.mk "n" []).String = .ok "n:()" := by
  have hs := strs_of_forall₂ cs ss h
  refine ⟨?_, queryComponents_String_of_strs cs ss hs, rfl, ?_, rfl⟩
  · rw [Index.String, hs]
    rfl
  · rw [Index.String, queryComponents.strs]
    show Except.ok ((if n = "" then "default" else n) ++ ":(" ++ "" ++ ")") = _
    congr 1
    apply String.ext
    simp [String.data_append]

/-- Witness of C13: the index `a` with a value, an operator and a range. -/
theorem C13_index_renders_scope_witness :
    List.Forall₂ (fun c s => c.String = .ok s)
      [queryComponent.value ⟨.str "v1"⟩, .keyword Keyword.Or,
        .range (.mk (.value ⟨.int 1⟩) (.value ⟨.keyword Keyword.Infinity⟩))]
      ["\"v1\"", "OR", "[1 TO Infinity]"] ∧
    (Index.mk "a" [queryComponent.value ⟨.str "v1"⟩, .keyword Keyword.Or,
      .range (.mk (.value ⟨.int 1⟩) (.value ⟨.keyword Keyword.Infinity⟩))]).String =
      .ok "a:(\"v1\" OR [1 TO Infinity])" :=
  ⟨List.Forall₂.cons rfl (List.Forall₂.cons rfl (List.Forall₂.cons rfl List.Forall₂.nil)),
    (C13_index_renders_scope "a"
      [queryComponent.value ⟨.str "v1"⟩, .keyword Keyword.Or,
        .range (.mk (.value ⟨.int 1⟩) (.value ⟨.keyword Keyword.Infinity⟩))]
      ["\"v1\"", "OR", "[1 TO Infinity]"]
      (List.Forall₂.cons rfl (List.Forall₂.cons rfl
        (List.Forall₂.cons rfl List.Forall₂.nil)))).1⟩

/-- C14: a query node with components `cs`, whose texts are `ss`, renders as the texts
joined by single spaces, between parentheses when the node is a group (created by
`Group()`) and bare when it is a root; this holds at every level of nesting, an empty root
renders the empty text and an empty group renders `()`. -/
theorem C14_query_renders_group_in_parentheses (g : Bool) (cs : List queryComponent)
    (ss : List String) (h : List.Forall₂ (fun c s => c.String = .ok s) cs ss) :
    (Query.mk g cs).String =
      .ok (if g then "(" ++ strings.Join ss " " ++ ")" else strings.Join ss " ") ∧
    (queryComponent.query (Query.mk g cs)).String = (Query.mk g cs).String ∧
    (∀ q : Query, q.Group.1.c = q.c ++ [.query (.mk true [])] ∧
      q.Group.1.isGroup = q.isGroup) ∧
    Query.new.isGroup = false ∧
    Query.new.String = .ok "" ∧
    (Query.mk true []).String = .ok "()" ∧
    Query.new.Group.1.String = .ok "()" ∧
    nestedGroups.String = .ok "(a:(\"x\") OR (b:(1)))" := by
  have hs := strs_of_forall₂ cs ss h
  refine ⟨?_, rfl, fun q => ⟨rfl, rfl⟩, rfl, rfl, rfl, rfl, rfl⟩
  rw [Query.String, hs]
  cases g <;> rfl

/-- Witness of C14: a group holding the index `a` with the text `x`, the operator `AND`
and an empty group. -/
theorem C14_query_renders_group_in_parentheses_witness :
    List.Forall₂ (fun c s => c.String = .ok s)
      [queryComponent.index (.mk "a" [.value ⟨.str "x"⟩]), .keyword Keyword.And,
        .query (.mk true [])]
      ["a:(\"x\")", "AND", "()"] ∧
    (Query.mk true [queryComponent.index (.mk "a" [.value ⟨.str "x"⟩]),
      .keyword Keyword.And, .query (.mk true [])]).String = .ok "(a:(\"x\") AND ())" :=
  ⟨List.Forall₂.cons rfl (List.Forall₂.cons rfl (List.Forall₂.cons rfl List.Forall₂.nil)),
    (C14_query_renders_group_in_parentheses true
      [queryComponent.index (.mk "a" [.value ⟨.str "x"⟩]), .keyword Keyword.And,
        .query (.mk true [])]
      ["a:(\"x\")", "AND", "()"]
      (List.Forall₂.cons rfl (List.Forall₂.cons rfl
        (List.Forall₂.cons rfl List.Forall₂.nil)))).1⟩

/-- C15: every builder operation appends one component at the end of the list of its
receiver and changes nothing else; the text of a list with one more component `c` is the
text of `c` when the list was empty and the text of the list, a space and the text of `c`
otherwise; no alternation of operators and operands is checked, `Index("f").And().Or()`
renders `f:(AND OR)`. -/
theorem C15_builders_append_one_component (cs : List queryComponent) (c : queryComponent)
    (S T : String) (h1 : queryComponents.String cs = .ok S) (h2 : c.String = .ok T) :
    queryComponents.String (cs ++ [c]) = .ok (if cs.isEmpty then T else S ++ " " ++ T) ∧
    (∀ q : Query,
      q.And = .mk q.isGroup (q.c ++ [.keyword Keyword.And]) ∧
      q.Or = .mk q.isGroup (q.c ++ [.keyword Keyword.Or]) ∧
      (∀ name, (q.Index name).1 = .mk q.isGroup (q.c ++ [.index (.mk name [])])) ∧
      q.Group.1 = .mk q.isGroup (q.c ++ [.query (.mk true [])])) ∧
    (∀ i : Index,
      i.And = .mk i.name (i.c ++ [.keyword Keyword.And]) ∧
      i.Or = .mk i.name (i.c ++ [.keyword Keyword.Or]) ∧
      (∀ v, i.Is v = .mk i.name (i.c ++ [.value ⟨v⟩])) ∧
      (∀ a b, i.Range a b =
        .mk i.name (i.c ++ [.range (.mk (.value ⟨a⟩) (.value ⟨b⟩))]))) ∧
    (Index.mk "f" []).And.Or.String = .ok "f:(AND OR)" ∧
    ((Index.mk "a" []).Is (.str "v1")).And.Or.String = .ok "a:(\"v1\" AND OR)" ∧
    Query.new.And.Or.String = .ok "AND OR" := by
  refine ⟨?_, fun q => ⟨rfl, rfl, fun _ => rfl, rfl⟩,
    fun i => ⟨rfl, rfl, fun _ => rfl, fun _ _ => rfl⟩, rfl, rfl, rfl⟩
  obtain ⟨ss, hs, hS⟩ := strs_of_queryComponents_String cs S h1
  have happ := strs_append_singleton cs c ss T hs h2
  rw [queryComponents_String_of_strs _ _ happ, Join_append_singleton,
    strs_isEmpty cs ss hs, hS]

/-- Witness of C15: the operator `OR` appended after a value and the operator `AND`. -/
theorem C15_builders_append_one_component_witness :
    (queryComponents.String [.value ⟨.str "v1"⟩, .keyword Keyword.And] =
        .ok "\"v1\" AND" ∧
      (queryComponent.keyword Keyword.Or).String = .ok "OR") ∧
    queryComponents.String [.value ⟨.str "v1"⟩, .keyword Keyword.And, .keyword Keyword.Or] =
      .ok "\"v1\" AND OR" :=
  ⟨⟨rfl, rfl⟩,
    (C15_builders_append_one_component [.value ⟨.str "v1"⟩, .keyword Keyword.And]
      (.keyword Keyword.Or) "\"v1\" AND" "OR" rfl rfl).1⟩

/-! ## Lemmas on the enumeration of the alias map and on blank tokens -/

theorem find?_perm (es1 es2 : List (String × String)) (hn : (es2.map Prod.fst).Nodup)
    (hp : es1.Perm es2) (a : String) :
    es1.find? (fun e => e.1 = a) = es2.find? (fun e => e.1 = a) := by
  cases h : es1.find? (fun e => e.1 = a) with
  | none =>
    rw [List.find?_eq_none] at h
    symm
    rw [List.find?_eq_none]
    intro e he
    exact h e (hp.mem_iff.mpr he)
  | some e =>
    have hmem : e ∈ es2 := hp.mem_iff.mp (List.mem_of_find?_eq_some h)
    have hkey : e.1 = a := by
      have := List.find?_some h
      simpa using this
    subst hkey
    exact (find?_of_mem_nodup es2 e.1 e.2 hn hmem).symm

theorem clause_perm (m1 m2 : GoMap) (hp : m1.entries.Perm m2.entries) (part : String) :
    ParseQuery.clause m1 part = ParseQuery.clause m2 part := by
  unfold ParseQuery.clause
  rw [find?_perm m1.entries m2.entries m2.nodup hp]

theorem clause_empty (m : GoMap) (t : String) (h : ¬ t.length > 0) :
    ParseQuery.clause m t = none := by
  simp only [ParseQuery.clause, h, if_false]

theorem clauses_filter (m : GoMap) (parts : List String) :
    ParseQuery.clauses m (parts.filter (fun t => decide (t.length > 0))) =
      ParseQuery.clauses m parts := by
  induction parts with
  | nil => rfl
  | cons t rest ih =>
    simp only [ParseQuery.clauses] at ih ⊢
    by_cases h : t.length > 0
    · simp only [List.filter_cons, h, decide_True, if_true, List.filterMap_cons, ih]
    · simp only [List.filter_cons, h, decide_False, Bool.false_eq_true, if_false,
        List.filterMap_cons, clause_empty m t h, ih]

/-- C16: the result of `ParseQuery` does not depend on the order in which the alias map is
enumerated: two enumerations of the same entries give the same boolean, the same query and
the same text; this holds for each execution of the loop over the map, so also when every
token sees its own order. -/
theorem C16_map_order_irrelevant (s : String) (m1 m2 : GoMap)
    (h : m1.entries.Perm m2.entries) :
    (ParseQuery s m1).2 = (ParseQuery s m2).2 ∧
    (ParseQuery s m1).1.String = (ParseQuery s m2).1.String ∧
    ParseQuery s m1 = ParseQuery s m2 ∧
    (∀ (st : ParseQuery.State) (part : String),
      ParseQuery.step m1 st part = ParseQuery.step m2 st part) := by
  have hstep : ∀ (st : ParseQuery.State) (part : String),
      ParseQuery.step m1 st part = ParseQuery.step m2 st part := by
    intro st part
    rw [step_eq, step_eq, clause_perm m1 m2 h]
  have hq : ParseQuery s m1 = ParseQuery s m2 := by
    have hf : ParseQuery.step m1 = ParseQuery.step m2 := by
      funext st part
      exact hstep st part
    simp only [ParseQuery, hf]
  exact ⟨by rw [hq], by rw [hq], hq, hstep⟩

/-- Witness of C16: the two enumerations of the alias map
`status -> "", priority -> issue_priority` on the input `priority:3 x status:open`. -/
theorem C16_map_order_irrelevant_witness :
    aliasStatusPriority.entries.Perm aliasStatusPriorityRev.entries ∧
    (ParseQuery "priority:3 x status:open" aliasStatusPriority).2 =
      (ParseQuery "priority:3 x status:open" aliasStatusPriorityRev).2 ∧
    (ParseQuery "priority:3 x status:open" aliasStatusPriority).1.String =
      (ParseQuery "priority:3 x status:open" aliasStatusPriorityRev).1.String ∧
    ParseQuery "priority:3 x status:open" aliasStatusPriority =
      ParseQuery "priority:3 x status:open" aliasStatusPriorityRev ∧
    (∀ (st : ParseQuery.State) (part : String),
      ParseQuery.step aliasStatusPriority st part =
        ParseQuery.step aliasStatusPriorityRev st part) :=
  ⟨List.Perm.swap _ _ _,
    C16_map_order_irrelevant "priority:3 x status:open" aliasStatusPriority
      aliasStatusPriorityRev (List.Perm.swap _ _ _)⟩

/-- C17: `ParseQuery` depends on its input only through the sequence of the non-empty
pieces between ASCII spaces: two inputs with the same sequence give the same boolean, the
same query and the same text; a tab or a newline does not separate tokens. -/
theorem C17_only_nonempty_tokens_matter (s1 s2 : String) (m : GoMap)
    (h : (strings.Split s1 ' ').filter (fun t => decide (t.length > 0)) =
      (strings.Split s2 ' ').filter (fun t => decide (t.length > 0))) :
    (ParseQuery s1 m).2 = (ParseQuery s2 m).2 ∧
    (ParseQuery s1 m).1.String = (ParseQuery s2 m).1.String ∧
    ParseQuery s1 m = ParseQuery s2 m ∧
    (∀ t : String, ' ' ∉ t.data → strings.Split t ' ' = [t]) ∧
    strings.Split "a\tb\nc" ' ' = ["a\tb\nc"] ∧
    (ParseQuery "a\tb\nc" aliasEmpty).1 =
      Query.mk false [.index (.mk "" [.value ⟨.str "a\tb\nc"⟩])] := by
  have hq : ParseQuery s1 m = ParseQuery s2 m := by
    rw [ParseQuery_eq, ParseQuery_eq, ← clauses_filter m (strings.Split s1 ' '),
      ← clauses_filter m (strings.Split s2 ' '), h]
  exact ⟨by rw [hq], by rw [hq], hq, Split_of_not_mem, by decide, rfl⟩

/-- Witness of C17: leading, repeated and trailing spaces around the tokens `a:1` and
`b`. -/
theorem C17_only_nonempty_tokens_matter_witness :
    (strings.Split "  a:1   b " ' ').filter (fun t => decide (t.length > 0)) =
      (strings.Split "a:1 b" ' ').filter (fun t => decide (t.length > 0)) ∧
    (ParseQuery "  a:1   b " aliasKnown).2 = (ParseQuery "a:1 b" aliasKnown).2 ∧
    (ParseQuery "  a:1   b " aliasKnown).1.String =
      (ParseQuery "a:1 b" aliasKnown).1.String ∧
    ParseQuery "  a:1   b " aliasKnown = ParseQuery "a:1 b" aliasKnown :=
  ⟨by decide,
    (C17_only_nonempty_tokens_matter "  a:1   b " "a:1 b" aliasKnown (by decide)).1,
    (C17_only_nonempty_tokens_matter "  a:1   b " "a:1 b" aliasKnown (by decide)).2.1,
    (C17_only_nonempty_tokens_matter "  a:1   b " "a:1 b" aliasKnown (by decide)).2.2.1⟩

/-! ## Lemmas on the shape of a parsed query -/

theorem length_joined (xs : List Index) :
    (ParseQuery.joined xs).length = 2 * xs.length - 1 := by
  induction xs with
  | nil => rfl
  | cons x rest ih =>
    cases rest with
    | nil => rfl
    | cons y ys =>
      simp only [ParseQuery.joined, List.length_cons] at ih ⊢
      omega

theorem joined_even (xs : List Index) (k : Nat) (x : Index) (h : xs[k]? = some x) :
    (ParseQuery.joined xs)[2 * k]? = some (.index x) := by
  induction xs generalizing k with
  | nil => simp at h
  | cons y rest ih =>
    cases k with
    | zero =>
      simp only [List.getElem?_cons_zero, Option.some.injEq] at h
      subst h
      cases rest <;> rfl
    | succ j =>
      rw [List.getElem?_cons_succ] at h
      cases rest with
      | nil => simp at h
      | cons z zs =>
        have e : 2 * (j + 1) = 2 * j + 1 + 1 := by omega
        rw [e]
        simp only [ParseQuery.joined, List.getElem?_cons_succ]
        exact ih j h

theorem joined_odd (xs : List Index) (k : Nat) (h : k + 1 < xs.length) :
    (ParseQuery.joined xs)[2 * k + 1]? = some (.keyword Keyword.And) := by
  induction xs generalizing k with
  | nil => simp at h
  | cons y rest ih =>
    cases rest with
    | nil => simp at h
    | cons z zs =>
      cases k with
      | zero => simp [ParseQuery.joined]
      | succ j =>
        have e : 2 * (j + 1) + 1 = 2 * j + 1 + 1 + 1 := by omega
        rw [e]
        simp only [ParseQuery.joined, List.getElem?_cons_succ]
        apply ih j
        simp only [List.length_cons] at h ⊢
        omega

theorem joined_head (xs : List Index) (c : queryComponent)
    (h : (ParseQuery.joined xs).head? = some c) : ∃ i, c = .index i := by
  cases xs with
  | nil => simp [ParseQuery.joined] at h
  | cons x rest =>
    cases rest with
    | nil =>
      simp only [ParseQuery.joined, List.head?_cons, Option.some.injEq] at h
      exact ⟨x, h.symm⟩
    | cons y ys =>
      simp only [ParseQuery.joined, List.head?_cons, Option.some.injEq] at h
      exact ⟨x, h.symm⟩

theorem joined_getLast (xs : List Index) (c : queryComponent)
    (h : (ParseQuery.joined xs).getLast? = some c) : ∃ i, c = .index i := by
  induction xs with
  | nil => simp [ParseQuery.joined] at h
  | cons x rest ih =>
    cases rest with
    | nil =>
      simp only [ParseQuery.joined, List.getLast?_singleton, Option.some.injEq] at h
      exact ⟨x, h.symm⟩
    | cons y ys =>
      apply ih
      rw [← h]
      cases ys <;> simp [ParseQuery.joined, List.getLast?_cons_cons]

theorem Join_getLast (ss : List String) (t sep : String) (c : Char)
    (h : t.data.getLast? = some c) :
    (strings.Join (ss ++ [t]) sep).data.getLast? = some c := by
  rw [Join_append_singleton]
  by_cases he : ss.isEmpty = true
  · simp only [he, if_true, h]
  · simp only [he, Bool.false_eq_true, if_false, String.data_append]
    rw [List.getLast?_append, h]
    rfl

theorem clauseText_getLast (x : String × String) :
    (ParseQuery.clauseText x).data.getLast? = some ')' := by
  simp only [ParseQuery.clauseText, String.data_append]
  rw [List.getLast?_append]
  rfl

theorem Join_clauseText_getLast (cl : List (String × String)) (hne : cl ≠ []) :
    (strings.Join (cl.map ParseQuery.clauseText) " AND ").data.getLast? = some ')' := by
  obtain ⟨ys, y, hy⟩ : ∃ ys y, cl = ys ++ [y] := by
    rcases List.eq_nil_or_concat cl with h | ⟨ys, y, h⟩
    · exact absurd h hne
    · exact ⟨ys, y, by rw [h, List.concat_eq_append]⟩
  rw [hy, List.map_append, List.map_singleton]
  exact Join_getLast _ _ _ _ (clauseText_getLast y)

/-! ## Lemmas on escaped texts -/

theorem not_reserved_ne (x : Char) (h : x ∉ Escape.reservedChars) :
    x ≠ '\\' ∧ x ≠ '"' ∧ Escape.reserved x = false := by
  refine ⟨?_, ?_, ?_⟩
  · intro e
    exact h (e ▸ by decide)
  · intro e
    exact h (e ▸ by decide)
  · rw [← Bool.not_eq_true, reserved_iff]
    exact h

theorem Unescape_runes_cons (x : Char) (l : List Char) (h : x ≠ '\\') :
    Unescape.runes (x :: l) = x :: Unescape.runes l := by
  cases l with
  | nil => simp [Unescape.runes, h]
  | cons d rest => simp [Unescape.runes, h]

theorem Unescape_runes_flatMap (l : List Char) :
    Unescape.runes
      (l.flatMap (fun c => if c ∈ Escape.reservedChars then ['\\', c] else [c])) = l := by
  induction l with
  | nil => rfl
  | cons x rest ih =>
    rw [List.flatMap_cons]
    by_cases hx : x ∈ Escape.reservedChars
    · simp only [hx, if_true, List.cons_append, List.nil_append, Unescape.runes, ih]
    · simp only [hx, if_false, List.cons_append, List.nil_append]
      rw [Unescape_runes_cons _ _ (not_reserved_ne x hx).1, ih]

theorem Unescape_Escape (s : String) : Unescape (Escape s) = s := by
  rw [Escape_eq_spec]
  apply String.ext
  exact Unescape_runes_flatMap s.data

theorem wellEscaped_cons (x : Char) (l : List Char) (h : x ∉ Escape.reservedChars) :
    Escape.wellEscaped (x :: l) = Escape.wellEscaped l := by
  obtain ⟨h1, _, h3⟩ := not_reserved_ne x h
  cases l with
  | nil => simp [Escape.wellEscaped, h3]
  | cons d rest => simp [Escape.wellEscaped, h1, h3]

theorem wellEscaped_flatMap (l : List Char) :
    Escape.wellEscaped
      (l.flatMap (fun c => if c ∈ Escape.reservedChars then ['\\', c] else [c])) = true := by
  induction l with
  | nil => rfl
  | cons x rest ih =>
    rw [List.flatMap_cons]
    by_cases hx : x ∈ Escape.reservedChars
    · simp only [hx, if_true, List.cons_append, List.nil_append, Escape.wellEscaped, ih]
    · simp only [hx, if_false, List.cons_append, List.nil_append]
      rw [wellEscaped_cons _ _ hx, ih]

theorem unescapedQuotes_cons (i : Nat) (x : Char) (l : List Char)
    (h : x ∉ Escape.reservedChars) :
    Escape.unescapedQuotes i (x :: l) = Escape.unescapedQuotes (i + 1) l := by
  obtain ⟨h1, h2, _⟩ := not_reserved_ne x h
  cases l with
  | nil => simp [Escape.unescapedQuotes, h2]
  | cons d rest => simp [Escape.unescapedQuotes, h1, h2]

theorem unescapedQuotes_flatMap (l : List Char) (i : Nat) :
    Escape.unescapedQuotes i
      (l.flatMap (fun c => if c ∈ Escape.reservedChars then ['\\', c] else [c]) ++ ['"']) =
      [i + (l.flatMap
        (fun c => if c ∈ Escape.reservedChars then ['\\', c] else [c])).length] := by
  induction l generalizing i with
  | nil => simp [Escape.unescapedQuotes]
  | cons x rest ih =>
    rw [List.flatMap_cons]
    by_cases hx : x ∈ Escape.reservedChars
    · simp only [hx, if_true, List.cons_append, List.nil_append, Escape.unescapedQuotes,
        ih, List.length_cons]
      congr 1
      omega
    · simp only [hx, if_false, List.cons_append, List.nil_append, List.length_cons]
      rw [unescapedQuotes_cons _ _ _ hx, ih]
      congr 1
      omega

/-- C20: in the scan of `Escape(s)` from left to right, each backslash consuming the
character after it, no backslash is left without a character to consume and no reserved
character stands outside such a pair; so in the text `"` + `Escape(s)` + `"` of a value
wrapping `s` the double quotes not consumed by a backslash are the first and the last
character only. -/
theorem C20_quoted_text_closed (s : String) :
    Escape.wellEscaped (Escape s).data = true ∧
    (queryValue.mk (.str s)).String = .ok ("\"" ++ Escape s ++ "\"") ∧
    Escape.unescapedQuotes 0 ("\"" ++ Escape s ++ "\"").data = [0, (Escape s).length + 1] ∧
    ("\"" ++ Escape s ++ "\"").length = (Escape s).length + 2 ∧
    Escape.unescapedQuotes 0 ("\"" ++ Escape "a\" OR \"b\\" ++ "\"").data = [0, 13] ∧
    Escape.wellEscaped "a\" OR b".data = false ∧
    Escape.wellEscaped "a\\".data = false := by
  refine ⟨?_, rfl, ?_, ?_, by decide, by decide, by decide⟩
  · rw [Escape_eq_spec]
    exact wellEscaped_flatMap s.data
  · have hd : ("\"" ++ Escape s ++ "\"").data = '"' :: ((Escape s).data ++ ['"']) := by
      simp [String.data_append]
    rw [hd, Escape_eq_spec]
    show Escape.unescapedQuotes 0 ('"' :: ((s.data.flatMap
      (fun c => if c ∈ Escape.reservedChars then ['\\', c] else [c])) ++ ['"'])) = _
    have hstep : ∀ l : List Char, Escape.unescapedQuotes 0 ('"' :: (l ++ ['"'])) =
        0 :: Escape.unescapedQuotes 1 (l ++ ['"']) := by
      intro l
      cases l <;> simp [Escape.unescapedQuotes]
    rw [hstep, unescapedQuotes_flatMap]
    simp only [Escape.spec, String.length]
    congr 2
    omega
  · simp only [String.length_append]
    have : ("\"" : String).length = 1 := by decide
    omega

/-! ## Lemmas on the escaper on bytes -/

theorem AppendRune_cases (n : Nat) (h : n < 0xD800 ∨ (0xDFFF < n ∧ n < 0x110000)) :
    (n < 0x80 ∧ utf8.AppendRune n = [n]) ∨
    (0x80 ≤ n ∧ n < 0x800 ∧ utf8.AppendRune n = [0xC0 + n / 0x40, 0x80 + n % 0x40]) ∨
    (0x800 ≤ n ∧ n < 0x10000 ∧
      utf8.AppendRune n = [0xE0 + n / 0x1000, 0x80 + n / 0x40 % 0x40, 0x80 + n % 0x40]) ∨
    (0x10000 ≤ n ∧ utf8.AppendRune n =
      [0xF0 + n / 0x40000, 0x80 + n / 0x1000 % 0x40, 0x80 + n / 0x40 % 0x40,
        0x80 + n % 0x40]) := by
  unfold utf8.AppendRune
  by_cases h1 : n < 0x80
  · exact Or.inl ⟨h1, by simp [h1]⟩
  · by_cases h2 : n < 0x800
    · exact Or.inr (Or.inl ⟨by omega, h2, by simp [h1, h2]⟩)
    · have h3 : ¬ (0x10FFFF < n ∨ (0xD800 ≤ n ∧ n ≤ 0xDFFF)) := by omega
      by_cases h4 : n < 0x10000
      · exact Or.inr (Or.inr (Or.inl ⟨by omega, h4, by simp [h1, h2, h3, h4]⟩))
      · exact Or.inr (Or.inr (Or.inr ⟨by omega, by simp [h1, h2, h3, h4]⟩))

theorem DecodeRune_AppendRune (n : Nat) (rest : List Nat)
    (h : n < 0xD800 ∨ (0xDFFF < n ∧ n < 0x110000)) :
    utf8.DecodeRuneInString (utf8.AppendRune n ++ rest) = (n, (utf8.AppendRune n).length) := by
  rcases AppendRune_cases n h with ⟨h1, e⟩ | ⟨h1, h2, e⟩ | ⟨h1, h2, e⟩ | ⟨h1, e⟩
  · rw [e]
    simp [utf8.DecodeRuneInString, h1]
  · rw [e]
    have a1 : ¬ (0xC0 + n / 0x40 < 0x80) := by omega
    have a2 : 0xC2 ≤ 0xC0 + n / 0x40 ∧ 0xC0 + n / 0x40 ≤ 0xDF := by omega
    have a3 : 0x80 ≤ 0x80 + n % 0x40 ∧ 0x80 + n % 0x40 ≤ 0xBF := by omega
    have a4 : (0xC0 + n / 0x40) % 0x20 * 0x40 + (0x80 + n % 0x40) % 0x40 = n := by omega
    simp only [List.cons_append, List.nil_append, utf8.DecodeRuneInString, a1, a2, a3, a4,
      if_true, if_false, and_self, List.length_cons, List.length_nil]
  · rw [e]
    have a1 : ¬ (0xE0 + n / 0x1000 < 0x80) := by omega
    have a2 : ¬ (0xC2 ≤ 0xE0 + n / 0x1000 ∧ 0xE0 + n / 0x1000 ≤ 0xDF) := by omega
    have a3 : 0xE0 ≤ 0xE0 + n / 0x1000 ∧ 0xE0 + n / 0x1000 ≤ 0xEF := by omega
    have a4 : (if 0xE0 + n / 0x1000 = 0xE0 then 0xA0 else 0x80) ≤ 0x80 + n / 0x40 % 0x40 ∧
        0x80 + n / 0x40 % 0x40 ≤ (if 0xE0 + n / 0x1000 = 0xED then 0x9F else 0xBF) ∧
        0x80 ≤ 0x80 + n % 0x40 ∧ 0x80 + n % 0x40 ≤ 0xBF := by
      refine ⟨?_, ?_, ?_, ?_⟩
      · split <;> omega
      · split <;> omega
      · omega
      · omega
    have a5 : (0xE0 + n / 0x1000) % 0x10 * 0x1000 + (0x80 + n / 0x40 % 0x40) % 0x40 * 0x40 +
        (0x80 + n % 0x40) % 0x40 = n := by omega
    simp only [List.cons_append, List.nil_append, utf8.DecodeRuneInString, a1, a2, a3, a4,
      a5, if_true, if_false, and_self, List.length_cons, List.length_nil]
  · rw [e]
    have a1 : ¬ (0xF0 + n / 0x40000 < 0x80) := by omega
    have a2 : ¬ (0xC2 ≤ 0xF0 + n / 0x40000 ∧ 0xF0 + n / 0x40000 ≤ 0xDF) := by omega
    have a3 : ¬ (0xE0 ≤ 0xF0 + n / 0x40000 ∧ 0xF0 + n / 0x40000 ≤ 0xEF) := by omega
    have a3' : 0xF0 ≤ 0xF0 + n / 0x40000 ∧ 0xF0 + n / 0x40000 ≤ 0xF4 := by omega
    have a4 : (if 0xF0 + n / 0x40000 = 0xF0 then 0x90 else 0x80) ≤
          0x80 + n / 0x1000 % 0x40 ∧
        0x80 + n / 0x1000 % 0x40 ≤ (if 0xF0 + n / 0x40000 = 0xF4 then 0x8F else 0xBF) ∧
        0x80 ≤ 0x80 + n / 0x40 % 0x40 ∧ 0x80 + n / 0x40 % 0x40 ≤ 0xBF ∧
        0x80 ≤ 0x80 + n % 0x40 ∧ 0x80 + n % 0x40 ≤ 0xBF := by
      refine ⟨?_, ?_, ?_, ?_, ?_, ?_⟩
      · split <;> omega
      · split <;> omega
      · omega
      · omega
      · omega
      · omega
    have a5 : (0xF0 + n / 0x40000) % 0x08 * 0x40000 +
        (0x80 + n / 0x1000 % 0x40) % 0x40 * 0x1000 +
        (0x80 + n / 0x40 % 0x40) % 0x40 * 0x40 + (0x80 + n % 0x40) % 0x40 = n := by omega
    simp only [List.cons_append, List.nil_append, utf8.DecodeRuneInString, a1, a2, a3, a3',
      a4, a5, if_true, if_false, and_self, List.length_cons, List.length_nil]

theorem rangeRunes_AppendRune (n : Nat) (rest : List Nat)
    (h : n < 0xD800 ∨ (0xDFFF < n ∧ n < 0x110000)) :
    utf8.rangeRunes 0 (utf8.AppendRune n ++ rest) = n :: utf8.rangeRunes 0 rest := by
  have hd := DecodeRune_AppendRune n rest h
  rcases AppendRune_cases n h with ⟨_, e⟩ | ⟨_, _, e⟩ | ⟨_, _, e⟩ | ⟨_, e⟩ <;>
    rw [e] at hd ⊢ <;>
    simp only [List.cons_append, List.nil_append] at hd ⊢ <;>
    simp [utf8.rangeRunes, hd]

theorem rangeRunes_bytes (l : List Char) :
    utf8.rangeRunes 0 (l.flatMap (fun c => utf8.AppendRune c.toNat)) = l.map Char.toNat := by
  induction l with
  | nil => rfl
  | cons c rest ih =>
    rw [List.flatMap_cons, rangeRunes_AppendRune c.toNat _ c.valid, ih, List.map_cons]

theorem utf8_bytes_injective (s t : String) (h : utf8.bytes s = utf8.bytes t) : s = t := by
  have h2 := congrArg (utf8.rangeRunes 0) h
  simp only [utf8.bytes, rangeRunes_bytes] at h2
  apply String.ext
  have h3 := congrArg (List.map Char.ofNat) h2
  simpa [List.map_map, Function.comp_def] using h3

theorem foldl_bytesStep (l : List Char) (b : List Nat) :
    (l.map Char.toNat).foldl Escape.bytesStep b =
      b ++ (l.flatMap (fun c => if c ∈ Escape.reservedChars then ['\\', c] else [c])).flatMap
        (fun c => utf8.AppendRune c.toNat) := by
  induction l generalizing b with
  | nil => simp
  | cons x rest ih =>
    rw [List.map_cons, List.foldl_cons, ih, List.flatMap_cons, List.flatMap_append]
    have hb : utf8.AppendRune 0x5C = utf8.AppendRune ('\\' : Char).toNat := rfl
    by_cases hx : x ∈ Escape.reservedChars
    · have hr := (reserved_iff x).mpr hx
      simp [Escape.bytesStep, Char.ofNat_toNat, hr, hx, hb]
    · have hr : Escape.reserved x = false := (not_reserved_ne x hx).2.2
      simp [Escape.bytesStep, Char.ofNat_toNat, hr, hx]

theorem Escape_bytes_ok (w : Nat) (b : List Nat) (h : b.length * 2 < 2 ^ (w - 1)) :
    Escape.bytes w b = .ok ((utf8.rangeRunes 0 b).foldl Escape.bytesStep []) := by
  have hmod : (b.length * 2) % 2 ^ w ≤ b.length * 2 := Nat.mod_le _ _
  have hn : ¬ 2 ^ (w - 1) ≤ (b.length * 2) % 2 ^ w := by omega
  simp only [Escape.bytes, hn, if_false]

theorem Escape_bytes_error_iff (w : Nat) (b : List Nat) :
    (∃ e, Escape.bytes w b = .error e) ↔ 2 ^ (w - 1) ≤ (b.length * 2) % 2 ^ w := by
  by_cases h : 2 ^ (w - 1) ≤ (b.length * 2) % 2 ^ w
  · simp only [Escape.bytes, h, if_true, iff_true]
    exact ⟨_, rfl⟩
  · simp only [Escape.bytes, h, if_false, iff_false]
    rintro ⟨e, he⟩
    cases he

/-- On the UTF-8 encoding of a text the source function, embedded on bytes, computes the
UTF-8 encoding of `Escape` of the text. -/
theorem Escape_bytes_utf8 (w : Nat) (s : String)
    (h : (utf8.bytes s).length * 2 < 2 ^ (w - 1)) :
    Escape.bytes w (utf8.bytes s) = .ok (utf8.bytes (Escape s)) := by
  rw [Escape_bytes_ok w _ h, Escape_eq_spec]
  simp only [utf8.bytes, rangeRunes_bytes, foldl_bytesStep, List.nil_append, Escape.spec]

theorem toNat_ne_backslash (c : Char) (h : c ≠ '\\') : c.toNat ≠ 0x5C := by
  intro e
  apply h
  have := congrArg Char.ofNat e
  rw [Char.ofNat_toNat] at this
  rw [this]

theorem AppendRune_no_backslash (c : Char) (h : c ≠ '\\') :
    0x5C ∉ utf8.AppendRune c.toNat := by
  have hne := toNat_ne_backslash c h
  rcases AppendRune_cases c.toNat c.valid with
    ⟨_, e⟩ | ⟨_, _, e⟩ | ⟨_, _, e⟩ | ⟨_, e⟩ <;>
    rw [e] <;> simp only [List.mem_cons, List.mem_singleton, List.not_mem_nil, or_false] <;>
    omega

theorem AppendRune_reserved (c : Char) (h : c ∈ Escape.reservedChars) :
    utf8.AppendRune c.toNat = [c.toNat] := by
  simp only [Escape.reservedChars, List.mem_cons, List.mem_singleton, List.not_mem_nil,
    or_false] at h
  rcases h with h | h | h | h | h | h | h | h | h | h | h | h | h | h | h | h | h | h | h <;>
    subst h <;> rfl

theorem Unescape_bytes_cons (x : Nat) (l : List Nat) (h : x ≠ 0x5C) :
    Unescape.bytes (x :: l) = x :: Unescape.bytes l := by
  cases l with
  | nil => simp [Unescape.bytes, h]
  | cons d rest => simp [Unescape.bytes, h]

theorem Unescape_bytes_append (bs rest : List Nat) (h : 0x5C ∉ bs) :
    Unescape.bytes (bs ++ rest) = bs ++ Unescape.bytes rest := by
  induction bs with
  | nil => rfl
  | cons x xs ih =>
    have hx : x ≠ 0x5C := fun e => h (e ▸ List.mem_cons_self _ _)
    rw [List.cons_append, Unescape_bytes_cons _ _ hx,
      ih (fun e => h (List.mem_cons_of_mem _ e)), List.cons_append]

theorem Unescape_bytes_flatMap (l : List Char) :
    Unescape.bytes
      ((l.flatMap (fun c => if c ∈ Escape.reservedChars then ['\\', c] else [c])).flatMap
        (fun c => utf8.AppendRune c.toNat)) =
      l.flatMap (fun c => utf8.AppendRune c.toNat) := by
  induction l with
  | nil => rfl
  | cons x rest ih =>
    rw [List.flatMap_cons, List.flatMap_append, List.flatMap_cons]
    by_cases hx : x ∈ Escape.reservedChars
    · have hb : utf8.AppendRune ('\\' : Char).toNat = [0x5C] := rfl
      simp only [hx, if_true, List.flatMap_cons, List.flatMap_nil, List.append_nil, hb,
        AppendRune_reserved x hx, List.cons_append, List.nil_append, Unescape.bytes, ih]
    · simp only [hx, if_false, List.flatMap_cons, List.flatMap_nil, List.append_nil]
      rw [Unescape_bytes_append _ _ (AppendRune_no_backslash x (not_reserved_ne x hx).1), ih]

theorem Unescape_bytes_Escape (s : String) :
    Unescape.bytes (utf8.bytes (Escape s)) = utf8.bytes s := by
  rw [Escape_eq_spec]
  exact Unescape_bytes_flatMap s.data

/-- C8 (counterexample): the Go string of the single byte `0xFF` contains no reserved
character, neither as a byte nor as a rune of the `range` loop, and `Escape` returns the
three bytes of `U+FFFD`, not the string itself. -/
theorem C8_ill_formed_byte_replaced :
    (∀ r ∈ utf8.rangeRunes 0 [0xFF], Escape.reserved (Char.ofNat r) = false) ∧
    (∀ c ∈ Escape.reservedChars, c.toNat ∉ [0xFF]) ∧
    Escape.bytes 64 [0xFF] = .ok [0xEF, 0xBF, 0xBD] ∧
    Escape.bytes 64 [0xFF] ≠ .ok [0xFF] := by
  refine ⟨by decide, by decide, rfl, ?_⟩
  intro h
  have h2 : Escape.bytes 64 [0xFF] = .ok [0xEF, 0xBF, 0xBD] := rfl
  rw [h2] at h
  injection h with h
  exact absurd h (by decide)

/-- C8 (amended): on a well-formed UTF-8 string without reserved character, whose doubled
byte length does not overflow `int` (of `w` bits), `Escape` returns the string itself, the
empty string included; `Escape` returns a result on every Go string whose doubled byte
length does not overflow `int`, and it panics, in `b.Grow`, exactly when `len(s) * 2` wraps
to a negative `int`, as for a string of `2^30` bytes with an `int` of 32 bits. -/
theorem C8_escape_identity_on_well_formed_text (w : Nat) (s : String)
    (h : ∀ c ∈ s.data, c ∉ Escape.reservedChars)
    (hlen : (utf8.bytes s).length * 2 < 2 ^ (w - 1)) :
    Escape.bytes w (utf8.bytes s) = .ok (utf8.bytes s) ∧
    Escape s = s ∧
    Escape.bytes w (utf8.bytes "") = .ok (utf8.bytes "") ∧
    Escape "" = "" ∧
    (∀ b : List Nat, b.length * 2 < 2 ^ (w - 1) → ∃ r, Escape.bytes w b = .ok r) ∧
    (∀ b : List Nat,
      (∃ e, Escape.bytes w b = .error e) ↔ 2 ^ (w - 1) ≤ (b.length * 2) % 2 ^ w) ∧
    (∃ e, Escape.bytes 32 (List.replicate (2 ^ 30) 0x61) = .error e) := by
  have hs : Escape s = s := Escape_of_not_reserved s h
  have hpos : 0 < 2 ^ (w - 1) := by positivity
  refine ⟨?_, hs, ?_, by decide, fun b hb => ⟨_, Escape_bytes_ok w b hb⟩,
    Escape_bytes_error_iff w, ?_⟩
  · rw [Escape_bytes_utf8 w s hlen, hs]
  · exact Escape_bytes_ok w [] (by simp only [List.length_nil, Nat.zero_mul]; exact hpos)
  · apply (Escape_bytes_error_iff 32 _).mpr
    rw [List.length_replicate]
    decide

/-- Witness of C8 (amended): the text `freeform text_1é` with an `int` of 64 bits. -/
theorem C8_escape_identity_on_well_formed_text_witness :
    ((∀ c ∈ "freeform text_1é".data, c ∉ Escape.reservedChars) ∧
      (utf8.bytes "freeform text_1é").length * 2 < 2 ^ (64 - 1)) ∧
    Escape.bytes 64 (utf8.bytes "freeform text_1é") = .ok (utf8.bytes "freeform text_1é") ∧
    Escape "freeform text_1é" = "freeform text_1é" :=
  ⟨⟨by decide, by decide⟩,
    (C8_escape_identity_on_well_formed_text 64 "freeform text_1é" (by decide)
      (by decide)).1,
    (C8_escape_identity_on_well_formed_text 64 "freeform text_1é" (by decide)
      (by decide)).2.1⟩

/-- C19 (counterexample): the Go strings of the single bytes `0xFF` and `0xFE` differ and
have the same escaped string, which is also the escaped string of the well-formed string
`U+FFFD`; so no function maps the result of `Escape` back to its argument. -/
theorem C19_ill_formed_bytes_collide :
    Escape.bytes 64 [0xFF] = Escape.bytes 64 [0xFE] ∧
    ([0xFF] : List Nat) ≠ [0xFE] ∧
    Escape.bytes 64 [0xFF] = Escape.bytes 64 (utf8.bytes "\uFFFD") ∧
    [0xFF] ≠ utf8.bytes "\uFFFD" ∧
    ¬ ∃ g : List Nat → List Nat, ∀ b r, Escape.bytes 64 b = .ok r → g r = b := by
  refine ⟨rfl, by decide, rfl, by decide, ?_⟩
  rintro ⟨g, hg⟩
  have h1 : g [0xEF, 0xBF, 0xBD] = [0xFF] := hg [0xFF] _ rfl
  have h2 : g [0xEF, 0xBF, 0xBD] = [0xFE] := hg [0xFE] _ rfl
  rw [h1] at h2
  exact absurd h2 (by decide)

/-- C19 (amended): on well-formed UTF-8 strings whose doubled byte length does not
overflow `int`, `Escape` is injective and has a left inverse: two such strings with the
same escaped string are equal, and the scan that drops each backslash and keeps what
follows it maps the result of `Escape` back to the string, on bytes and on code points. -/
theorem C19_escape_injective_on_well_formed_text (w : Nat) (s t : String)
    (hs : (utf8.bytes s).length * 2 < 2 ^ (w - 1))
    (ht : (utf8.bytes t).length * 2 < 2 ^ (w - 1)) :
    (Escape.bytes w (utf8.bytes s) = Escape.bytes w (utf8.bytes t) → s = t) ∧
    (∃ r, Escape.bytes w (utf8.bytes s) = .ok r ∧ Unescape.bytes r = utf8.bytes s) ∧
    Escape.bytes w (utf8.bytes s) = .ok (utf8.bytes (Escape s)) ∧
    Unescape (Escape s) = s ∧
    (Escape s = Escape t → s = t) := by
  have hinj : Escape s = Escape t → s = t := by
    intro h
    rw [← Unescape_Escape s, ← Unescape_Escape t, h]
  refine ⟨?_, ⟨_, Escape_bytes_utf8 w s hs, Unescape_bytes_Escape s⟩,
    Escape_bytes_utf8 w s hs, Unescape_Escape s, hinj⟩
  intro h
  rw [Escape_bytes_utf8 w s hs, Escape_bytes_utf8 w t ht] at h
  injection h with h
  exact hinj (utf8_bytes_injective _ _ h)

/-- Witness of C19 (amended): the texts `a/b\c "d"é` and `a\/b`, with an `int` of 64
bits. -/
theorem C19_escape_injective_on_well_formed_text_witness :
    ((utf8.bytes "a/b\\c \"d\"é").length * 2 < 2 ^ (64 - 1) ∧
      (utf8.bytes "a\\/b").length * 2 < 2 ^ (64 - 1)) ∧
    (∃ r, Escape.bytes 64 (utf8.bytes "a/b\\c \"d\"é") = .ok r ∧
      Unescape.bytes r = utf8.bytes "a/b\\c \"d\"é") ∧
    Escape.bytes 64 (utf8.bytes "a/b\\c \"d\"é") =
      .ok (utf8.bytes "a\\/b\\\\c \\\"d\\\"é") ∧
    Unescape (Escape "a/b\\c \"d\"é") = "a/b\\c \"d\"é" :=
  ⟨⟨by decide, by decide⟩,
    (C19_escape_injective_on_well_formed_text 64 "a/b\\c \"d\"é" "a\\/b" (by decide)
      (by decide)).2.1,
    (C19_escape_injective_on_well_formed_text 64 "a/b\\c \"d\"é" "a\\/b" (by decide)
      (by decide)).2.2.1,
    (C19_escape_injective_on_well_formed_text 64 "a/b\\c \"d\"é" "a\\/b" (by decide)
      (by decide)).2.2.2.1⟩

/-! ## Lemmas on the first and the last characters of a parsed text -/

theorem genSplit_no_sep (sep : Char) (k : Nat) :
    ∀ l : List Char, l.count sep = k → ∀ p ∈ strings.genSplit sep k l, sep ∉ p := by
  induction k with
  | zero =>
    intro l hc p hp
    rw [strings.genSplit, List.mem_singleton] at hp
    rw [hp]
    exact List.count_eq_zero.mp hc
  | succ k ih =>
    intro l hc p hp
    rw [strings.genSplit, List.span_eq_take_drop] at hp
    have htake : sep ∉ l.takeWhile (fun c => c != sep) := by
      intro hmem
      have := List.mem_takeWhile_imp hmem
      simp at this
    have hsplit := List.takeWhile_append_dropWhile (fun c => c != sep) l
    cases hd : l.dropWhile (fun c => c != sep) with
    | nil =>
      rw [hd] at hp
      simp only [List.mem_singleton] at hp
      rw [hp]
      exact htake
    | cons x rest =>
      rw [hd] at hp
      simp only [List.mem_cons] at hp
      rcases hp with hp | hp
      · rw [hp]
        exact htake
      · have hx : x = sep := by
          have := List.head_dropWhile_not (fun c => c != sep) l (by rw [hd]; simp)
          simp only [hd, List.head_cons] at this
          simpa using this
        have hcount : rest.count sep = k := by
          rw [← hsplit, hd, List.count_append, List.count_eq_zero.mpr htake, hx,
            List.count_cons_self] at hc
          omega
        exact ih rest hcount p hp

theorem Split_no_space (s part : String) (h : part ∈ strings.Split s ' ') :
    ' ' ∉ part.data := by
  simp only [strings.Split, strings.Count, List.mem_map] at h
  obtain ⟨p, hp, rfl⟩ := h
  exact genSplit_no_sep ' ' _ s.data rfl p hp

theorem clause_name_no_space (m : GoMap) (part : String) (x : String × String)
    (hv : ∀ e ∈ m.entries, ' ' ∉ e.2.data) (hp : ' ' ∉ part.data)
    (h : ParseQuery.clause m part = some x) : ' ' ∉ x.1.data := by
  unfold ParseQuery.clause at h
  by_cases hl : part.length > 0
  · by_cases hc : ':' ∈ part.data
    · simp only [hl, hc, if_true, Option.map_eq_some'] at h
      obtain ⟨e, he, hx⟩ := h
      have hmem := List.mem_of_find?_eq_some he
      have hkey : e.1 = ParseQuery.fieldOf part := by
        have := List.find?_some he
        simpa using this
      rw [← hx]
      by_cases hne : e.2 ≠ ""
      · rw [if_pos hne]
        exact hv e hmem
      · rw [if_neg hne, hkey]
        simp only [ParseQuery.fieldOf]
        intro hin
        exact hp ((List.takeWhile_prefix _).subset hin)
    · simp only [hl, hc, if_true, if_false, Option.some.injEq] at h
      rw [← h]
      simp
  · simp only [hl, if_false] at h
    cases h

theorem startsWithOperator_of_name (name tl : List Char) (h : ' ' ∉ name) :
    startsWithOperator ⟨name ++ ':' :: tl⟩ = false := by
  rcases name with _ | ⟨a, _ | ⟨b, _ | ⟨c, _ | ⟨d, r⟩⟩⟩⟩
  · simp [startsWithOperator, String.ext_iff, List.isPrefixOf]
  · simp [startsWithOperator, String.ext_iff, List.isPrefixOf]
  · simp [startsWithOperator, String.ext_iff, List.isPrefixOf]
  · simp [startsWithOperator, String.ext_iff, List.isPrefixOf] at h ⊢
    intro _ _
    exact h.2.2
  · simp [startsWithOperator, String.ext_iff, List.isPrefixOf] at h ⊢
    exact ⟨fun _ _ _ => h.2.2.2.1, fun _ _ => h.2.2.1⟩

theorem Join_cons_data (x : String) (rest : List String) (sep : String) :
    ∃ tl, (strings.Join (x :: rest) sep).data = x.data ++ tl := by
  cases rest with
  | nil => exact ⟨[], by simp [strings.Join]⟩
  | cons y ys =>
    refine ⟨(sep ++ strings.Join (y :: ys) sep).data, ?_⟩
    show (x ++ sep ++ strings.Join (y :: ys) sep).data = _
    simp [String.data_append]

theorem clauseText_data (x : String × String) :
    ∃ tl, (ParseQuery.clauseText x).data =
      (if x.1 = "" then "default" else x.1).data ++ ':' :: tl := by
  refine ⟨'(' :: (("\"" ++ Escape x.2 ++ "\"") ++ ")").data, ?_⟩
  simp [ParseQuery.clauseText, String.data_append]

theorem startsWithOperator_Join (cl : List (String × String))
    (h : ∀ x ∈ cl, ' ' ∉ x.1.data) :
    startsWithOperator (strings.Join (cl.map ParseQuery.clauseText) " AND ") = false := by
  cases cl with
  | nil => decide
  | cons x rest =>
    obtain ⟨tl1, h1⟩ := Join_cons_data (ParseQuery.clauseText x)
      (rest.map ParseQuery.clauseText) " AND "
    obtain ⟨tl2, h2⟩ := clauseText_data x
    have hname : ' ' ∉ (if x.1 = "" then "default" else x.1).data := by
      by_cases he : x.1 = ""
      · rw [if_pos he]
        decide
      · rw [if_neg he]
        exact h x (List.mem_cons_self _ _)
    have hd : (strings.Join ((x :: rest).map ParseQuery.clauseText) " AND ") =
        ⟨(if x.1 = "" then "default" else x.1).data ++ ':' :: (tl2 ++ tl1)⟩ := by
      apply String.ext
      rw [List.map_cons, h1, h2]
      simp
    rw [hd]
    exact startsWithOperator_of_name _ _ hname

theorem endsWithOperator_of_getLast (text : String)
    (h : text.data.getLast? = some ')') : endsWithOperator text = false := by
  have h1 : text ≠ "AND" := by
    intro e
    rw [e] at h
    exact absurd h (by decide)
  have h2 : text ≠ "OR" := by
    intro e
    rw [e] at h
    exact absurd h (by decide)
  have h3 : " AND".data.isSuffixOf text.data = false := by
    rw [← Bool.not_eq_true, List.isSuffixOf_iff_suffix]
    rintro ⟨t, ht⟩
    rw [← ht, List.getLast?_append] at h
    have e : " AND".data.getLast?.or t.getLast? = some 'D' := rfl
    rw [e] at h
    exact absurd h (by decide)
  have h4 : " OR".data.isSuffixOf text.data = false := by
    rw [← Bool.not_eq_true, List.isSuffixOf_iff_suffix]
    rintro ⟨t, ht⟩
    rw [← ht, List.getLast?_append] at h
    have e : " OR".data.getLast?.or t.getLast? = some 'R' := rfl
    rw [e] at h
    exact absurd h (by decide)
  simp [endsWithOperator, h1, h2, h3, h4]

theorem clauses_name_no_space (m : GoMap) (s : String)
    (hv : ∀ e ∈ m.entries, ' ' ∉ e.2.data) :
    ∀ x ∈ ParseQuery.clauses m (strings.Split s ' '), ' ' ∉ x.1.data := by
  intro x hx
  simp only [ParseQuery.clauses, List.mem_filterMap] at hx
  obtain ⟨part, hpart, hc⟩ := hx
  exact clause_name_no_space m part x hv (Split_no_space s part hpart) hc

/-- C18 (counterexample): with the alias `AND b` for the key `a`, the input `a:1` gives
the single clause `Index("AND b").Is("1")`, and the text of the parsed query,
`AND b:("1")`, starts with the operator `AND`. -/
theorem C18_text_starts_with_operator :
    (ParseQuery "a:1" aliasAndB).1 =
      Query.mk false [.index (.mk "AND b" [.value ⟨.str "1"⟩])] ∧
    (ParseQuery "a:1" aliasAndB).1.String = .ok "AND b:(\"1\")" ∧
    startsWithOperator "AND b:(\"1\")" = true :=
  ⟨rfl, rfl, by decide⟩

/-- C18 (amended): the query returned by `ParseQuery` is a root (not a group); with `n` the
number of accepted clauses its list is empty when `n = 0` and has `2n - 1` components
otherwise, an index holding exactly one value that wraps a text at every even position and
the keyword `AND` at every odd position; so its first and its last component are indexes,
`String()` returns a text, the text never ends with an operator (it ends with the closing
parenthesis of the last clause when it is not empty), and it never starts with an operator
when no alias value of the map contains a space. -/
theorem C18_parsed_query_shape (s : String) (m : GoMap) :
    ∃ n : Nat, n = (ParseQuery.clauses m (strings.Split s ' ')).length ∧
      (ParseQuery s m).1.isGroup = false ∧
      (ParseQuery s m).2 = decide (n > 0) ∧
      (n = 0 → (ParseQuery s m).1.c = []) ∧
      (ParseQuery s m).1.c.length = 2 * n - 1 ∧
      (∀ k, k < (ParseQuery s m).1.c.length → k % 2 = 0 →
        ∃ name v, (ParseQuery s m).1.c[k]? = some (.index (.mk name [.value ⟨.str v⟩]))) ∧
      (∀ k, k < (ParseQuery s m).1.c.length → k % 2 = 1 →
        (ParseQuery s m).1.c[k]? = some (.keyword Keyword.And)) ∧
      (∀ x, (ParseQuery s m).1.c.head? = some x → ∃ i, x = .index i) ∧
      (∀ x, (ParseQuery s m).1.c.getLast? = some x → ∃ i, x = .index i) ∧
      (∃ text, (ParseQuery s m).1.String = .ok text ∧
        (text = "" ∨ text.data.getLast? = some ')') ∧
        endsWithOperator text = false ∧
        ((∀ e ∈ m.entries, ' ' ∉ e.2.data) → startsWithOperator text = false)) := by
  have hq := ParseQuery_eq s m
  have hs := ParseQuery_String s m
  have hnames := clauses_name_no_space m s
  generalize ParseQuery.clauses m (strings.Split s ' ') = cl at hq hs hnames
  have hc : (ParseQuery s m).1.c = ParseQuery.joined (cl.map ParseQuery.toIndex) := by
    rw [hq]
    rfl
  have hlen : (ParseQuery s m).1.c.length = 2 * cl.length - 1 := by
    rw [hc, length_joined, List.length_map]
  refine ⟨cl.length, rfl, by rw [hq]; rfl, by rw [hq], ?_, hlen, ?_, ?_, ?_, ?_, ?_⟩
  · intro h0
    rw [hc, List.length_eq_zero.mp h0]
    rfl
  · intro k hk hev
    rw [hlen] at hk
    have hj : k / 2 < cl.length := by omega
    have hget : (cl.map ParseQuery.toIndex)[k / 2]? =
        some (ParseQuery.toIndex (cl.get ⟨k / 2, hj⟩)) := by
      rw [List.getElem?_map, List.getElem?_eq_getElem hj]
      rfl
    have := joined_even _ _ _ hget
    have e : 2 * (k / 2) = k := by omega
    rw [e] at this
    exact ⟨(cl.get ⟨k / 2, hj⟩).1, (cl.get ⟨k / 2, hj⟩).2, by rw [hc, this]; rfl⟩
  · intro k hk hodd
    rw [hlen] at hk
    have hj : k / 2 + 1 < (cl.map ParseQuery.toIndex).length := by
      rw [List.length_map]
      omega
    have := joined_odd _ _ hj
    have e : 2 * (k / 2) + 1 = k := by omega
    rw [e] at this
    rw [hc, this]
  · intro x hx
    rw [hc] at hx
    exact joined_head _ _ hx
  · intro x hx
    rw [hc] at hx
    exact joined_getLast _ _ hx
  · refine ⟨_, hs, ?_, ?_, fun hv => startsWithOperator_Join cl (hnames hv)⟩
    · by_cases hne : cl = []
      · left
        rw [hne]
        rfl
      · right
        exact Join_clauseText_getLast cl hne
    · by_cases hne : cl = []
      · rw [hne]
        rfl
      · exact endsWithOperator_of_getLast _ (Join_clauseText_getLast cl hne)

/-- Witness of C18 (amended): the input `status:open priority:3 x` with the alias map
`status -> "", priority -> issue_priority`, no value of which contains a space. -/
theorem C18_parsed_query_shape_witness :
    (∀ e ∈ aliasStatusPriority.entries, ' ' ∉ e.2.data) ∧
    (ParseQuery "status:open priority:3 x" aliasStatusPriority).1.String =
      .ok "status:(\"open\") AND issue_priority:(\"3\") AND default:(\"x\")" ∧
    startsWithOperator "status:(\"open\") AND issue_priority:(\"3\") AND default:(\"x\")" =
      false ∧
    endsWithOperator "status:(\"open\") AND issue_priority:(\"3\") AND default:(\"x\")" =
      false ∧
    ∃ n : Nat,
      n = (ParseQuery.clauses aliasStatusPriority
        (strings.Split "status:open priority:3 x" ' ')).length ∧
      (ParseQuery "status:open priority:3 x" aliasStatusPriority).1.c.length = 2 * n - 1 := by
  obtain ⟨n, h1, _, _, _, h5, _⟩ :=
    C18_parsed_query_shape "status:open priority:3 x" aliasStatusPriority
  exact ⟨by decide, rfl, by decide, by decide, n, h1, h5⟩

end cloudant
